import Mathlib

/-!
Verification of the code-annotations feature-toggle pipeline.

The repository excerpt contains the Sphinx rendering adapter
(`code_annotations/contrib/sphinx/extensions/featuretoggles.py`); the
annotation Scanner and Record Assembler (`find_annotations` from
`contrib/sphinx/extensions/base.py`) are not part of the excerpt, so they
are modelled from the specification (sections 3, 4.1, 4.2 and 7 of the
design document).  The rendering adapter is embedded directly from the
source file.

String manipulation is modelled over `String.data` (lists of characters)
so that every definition evaluates by kernel reduction.
-/

/-! ### Character-list string utilities -/

/-- Lexicographic (code-point) order on character lists, as used by a
deterministic lexicographic path ordering and by Python `sorted` on
strings. -/
def lexLe : List Char → List Char → Bool
  | [], _ => true
  | _ :: _, [] => false
  | a :: as, b :: bs => if a < b then true else if b < a then false else lexLe as bs

/-- Lexicographic order on strings via their character data. -/
def strLe (s t : String) : Bool := lexLe s.data t.data

/-- Does the character list `l` begin with the pattern `p`? -/
def beginsWith : List Char → List Char → Bool
  | [], _ => true
  | _ :: _, [] => false
  | a :: as, b :: bs => a == b && beginsWith as bs

/-- Strip leading and trailing whitespace from a character list. -/
def trimData (l : List Char) : List Char :=
  ((l.dropWhile Char.isWhitespace).reverse.dropWhile Char.isWhitespace).reverse

/-! ### Data model (modelled from the spec)

`AnnotConfig`, `RawAnnot`, `Record` and the diagnostics are the spec's
`AnnotationConfig`, `RawAnnotation`, `Record` and error taxonomy
(design document sections 3 and 7). -/

/-- Modelled from the spec: `AnnotationConfig` declares the grammar — the
"name" tag that starts a new record, the attribute tags, and per-tag
cardinality (single-value vs multi-value).  The comment marker of an
annotation line is folded into the configured tag text. -/
structure AnnotConfig where
  nameTag : String
  attrTags : List String
  multiTags : List String
deriving DecidableEq

/-- Is `t` a multi-value (list) tag under this configuration? -/
def AnnotConfig.isMulti (cfg : AnnotConfig) (t : String) : Bool :=
  cfg.multiTags.contains t

/-- Modelled from the spec: `RawAnnotation` — one matched line: tag, raw
text value, source file path, 1-based line number. -/
structure RawAnnot where
  tag : String
  value : String
  file : String
  line : Nat
deriving DecidableEq

/-- Modelled from the spec: `Record` — the assembled unit for one named
entity: provenance (file, line of the defining name tag), a map from
single-value tag to its value, and a map from multi-value tag to the
ordered list of its values. -/
structure Record where
  name : String
  file : String
  line : Nat
  single : List (String × String)
  multi : List (String × List String)
deriving DecidableEq

/-- Modelled from the spec: the structural-error taxonomy relevant to the
assembler — `DuplicateName` (with the duplicate's name and provenance)
and `OrphanAttribute` (the orphan tuple). -/
inductive Diagnostic where
  | DuplicateName (name file : String) (line : Nat)
  | OrphanAttribute (tag value file : String) (line : Nat)
deriving DecidableEq

/-- Modelled from the spec: the assembler state machine's mode —
`awaitingName` before the first name tag, `inRecord n` while folding
attributes into the open record `n`, and `discarding` after a duplicate
name tag (the first definition is retained, subsequent attributes of the
duplicate block are dropped). -/
inductive AsmMode where
  | awaitingName
  | inRecord (name : String)
  | discarding
deriving DecidableEq

/-- The assembler's accumulating state: the name-to-Record mapping (an
association list in order of first appearance), the current mode, and the
accumulated diagnostics. -/
structure AsmState where
  records : List (String × Record)
  mode : AsmMode
  diags : List Diagnostic
deriving DecidableEq

/-- A fresh record opened by the name tuple `a`: provenance is the tuple's
(file, line), no attribute values yet. -/
def Record.new (a : RawAnnot) : Record :=
  ⟨a.value, a.file, a.line, [], []⟩

/-- Overwrite semantics for a single-value tag: last occurrence wins. -/
def setSingle : List (String × String) → String → String → List (String × String)
  | [], t, v => [(t, v)]
  | (k, w) :: rest, t, v =>
    if k = t then (k, v) :: rest else (k, w) :: setSingle rest t v

/-- Append semantics for a multi-value tag: occurrences accumulate in
stream order. -/
def addMulti : List (String × List String) → String → String → List (String × List String)
  | [], t, v => [(t, [v])]
  | (k, ws) :: rest, t, v =>
    if k = t then (k, ws ++ [v]) :: rest else (k, ws) :: addMulti rest t v

/-- Fold one attribute tuple into an open record: multi-value tags append,
single-value tags overwrite. -/
def Record.addAttr (cfg : AnnotConfig) (r : Record) (a : RawAnnot) : Record :=
  if cfg.isMulti a.tag then { r with multi := addMulti r.multi a.tag a.value }
  else { r with single := setSingle r.single a.tag a.value }

/-- Fold an attribute tuple into the record named `n` of the mapping. -/
def updateRecords (cfg : AnnotConfig) (rs : List (String × Record)) (n : String)
    (a : RawAnnot) : List (String × Record) :=
  rs.map fun p => if p.1 = n then (p.1, p.2.addAttr cfg a) else p

/-- Modelled from the spec: one transition of the Record Assembler's state
machine (design document section 4.2).  A name tag opens a new record when
the name is fresh and otherwise reports `DuplicateName` and discards the
duplicate block; an attribute tag is folded into the open record, reported
as `OrphanAttribute` before the first name tag, and dropped while
discarding. -/
def step (cfg : AnnotConfig) (st : AsmState) (a : RawAnnot) : AsmState :=
  if a.tag = cfg.nameTag then
    match st.records.lookup a.value with
    | some _ =>
      { st with mode := .discarding,
                diags := st.diags ++ [.DuplicateName a.value a.file a.line] }
    | none =>
      { st with records := st.records ++ [(a.value, Record.new a)],
                mode := .inRecord a.value }
  else
    match st.mode with
    | .awaitingName =>
      { st with diags := st.diags ++ [.OrphanAttribute a.tag a.value a.file a.line] }
    | .discarding => st
    | .inRecord n => { st with records := updateRecords cfg st.records n a }

/-- Modelled from the spec: the Record Assembler — consume the ordered
`RawAnnotation` stream and produce the name-to-Record mapping together
with the accumulated structural diagnostics; the scan never aborts. -/
def assemble (cfg : AnnotConfig) (s : List RawAnnot) : AsmState :=
  s.foldl (step cfg) ⟨[], .awaitingName, []⟩

/-- The predicate "this tuple is not a name tag" used to delimit a
record's attribute block. -/
def notName (cfg : AnnotConfig) (a : RawAnnot) : Bool :=
  ! (a.tag == cfg.nameTag)

/-- The attribute block of the currently open record: the tuples up to
(excluding) the next name tag. -/
def attrBlock (cfg : AnnotConfig) (l : List RawAnnot) : List RawAnnot :=
  l.takeWhile (notName cfg)

/-- The remainder of the stream from the next name tag on. -/
def nextBlock (cfg : AnnotConfig) (l : List RawAnnot) : List RawAnnot :=
  l.dropWhile (notName cfg)

/-- The record assembled from one name tuple and its attribute block. -/
def buildRecord (cfg : AnnotConfig) (a : RawAnnot) (attrs : List RawAnnot) : Record :=
  attrs.foldl (Record.addAttr cfg) (Record.new a)

/-- The values of the name tags of a stream, in stream order. -/
def namesOf (cfg : AnnotConfig) (s : List RawAnnot) : List String :=
  (s.filter fun a => a.tag == cfg.nameTag).map RawAnnot.value

/-- Length bound for `dropWhile`, used for termination of the
segment-level reference functions. -/
theorem dropWhile_length_le (p : α → Bool) : ∀ l : List α, (l.dropWhile p).length ≤ l.length
  | [] => Nat.le_refl _
  | a :: t => by
    by_cases h : p a
    · simp only [List.dropWhile, h]
      exact Nat.le_succ_of_le (dropWhile_length_le p t)
    · simp [List.dropWhile, h]

/-- Reference mapping: the records produced from a stream, one per fresh
name tag, each built from the attribute block that follows its name tag;
`seen` records the names already defined (duplicates are skipped). -/
def gRecords (cfg : AnnotConfig) (seen : String → Bool) : List RawAnnot → List (String × Record)
  | [] => []
  | a :: t =>
    if a.tag = cfg.nameTag then
      if seen a.value then gRecords cfg seen (nextBlock cfg t)
      else (a.value, buildRecord cfg a (attrBlock cfg t)) ::
        gRecords cfg (fun x => seen x || x == a.value) (nextBlock cfg t)
    else gRecords cfg seen t
termination_by l => l.length
decreasing_by
  · exact Nat.lt_succ_of_le (dropWhile_length_le _ t)
  · exact Nat.lt_succ_of_le (dropWhile_length_le _ t)
  · exact Nat.lt_succ_of_le (Nat.le_refl _)

/-- Reference diagnostics: a `DuplicateName` per repeated name tag and an
`OrphanAttribute` per attribute tuple before the first name tag. -/
def gDiags (cfg : AnnotConfig) (seen : String → Bool) : List RawAnnot → List Diagnostic
  | [] => []
  | a :: t =>
    if a.tag = cfg.nameTag then
      if seen a.value then
        .DuplicateName a.value a.file a.line :: gDiags cfg seen (nextBlock cfg t)
      else gDiags cfg (fun x => seen x || x == a.value) (nextBlock cfg t)
    else .OrphanAttribute a.tag a.value a.file a.line :: gDiags cfg seen t
termination_by l => l.length
decreasing_by
  · exact Nat.lt_succ_of_le (dropWhile_length_le _ t)
  · exact Nat.lt_succ_of_le (dropWhile_length_le _ t)
  · exact Nat.lt_succ_of_le (Nat.le_refl _)

/-- The segmentation of a stream: each name tuple paired with the
attribute tuples strictly between it and the next name tag (or the end of
the stream). -/
def segments (cfg : AnnotConfig) : List RawAnnot → List (RawAnnot × List RawAnnot)
  | [] => []
  | a :: t =>
    if a.tag = cfg.nameTag then
      (a, attrBlock cfg t) :: segments cfg (nextBlock cfg t)
    else segments cfg t
termination_by l => l.length
decreasing_by
  · exact Nat.lt_succ_of_le (dropWhile_length_le _ t)
  · exact Nat.lt_succ_of_le (Nat.le_refl _)

/-- The name tuples of the stream carrying the entity name `X`. -/
def nameTuples (cfg : AnnotConfig) (X : String) (s : List RawAnnot) : List RawAnnot :=
  s.filter fun a => a.tag == cfg.nameTag && a.value == X

/-- The first name tuple with value `X` together with its attribute
block, if any. -/
def firstSeg (cfg : AnnotConfig) (X : String) : List RawAnnot → Option (RawAnnot × List RawAnnot)
  | [] => none
  | a :: t =>
    if a.tag == cfg.nameTag && a.value == X then some (a, attrBlock cfg t)
    else firstSeg cfg X t

/-- The last value of the single-value tag `t` occurring in an attribute
block, if any. -/
def lastVal (t : String) (attrs : List RawAnnot) : Option String :=
  ((attrs.filter fun a => a.tag == t).map RawAnnot.value).getLast?

/-- The accumulated values of the multi-value tag `t` in a record. -/
def multiVals (r : Record) (t : String) : List String :=
  (r.multi.lookup t).getD []

/-! ### Association-list and block-decomposition lemmas -/

theorem lookup_cons_eq {β : Type} (k a : String) (b : β) (t : List (String × β)) :
    ((a, b) :: t).lookup k = if k = a then some b else t.lookup k := by
  by_cases h : k = a
  · simp [List.lookup, h]
  · have hb : (k == a) = false := beq_eq_false_iff_ne.mpr h
    simp [List.lookup, hb, h]

theorem lookup_eq_none_iff {β : Type} (l : List (String × β)) (k : String) :
    l.lookup k = none ↔ k ∉ l.map Prod.fst := by
  induction l with
  | nil => simp
  | cons p t ih =>
    rcases p with ⟨a, b⟩
    rw [lookup_cons_eq]
    by_cases h : k = a
    · subst h; simp
    · simp [h, ih]

theorem lookup_append {β : Type} (l1 l2 : List (String × β)) (k : String) :
    (l1 ++ l2).lookup k =
      match l1.lookup k with
      | some v => some v
      | none => l2.lookup k := by
  induction l1 with
  | nil => simp
  | cons p t ih =>
    rcases p with ⟨a, b⟩
    rw [List.cons_append, lookup_cons_eq, lookup_cons_eq]
    by_cases h : k = a
    · simp [h]
    · simp [h, ih]

theorem lookup_of_mem_nodup {β : Type} (l : List (String × β)) (k : String) (v : β)
    (hm : (k, v) ∈ l) (hd : (l.map Prod.fst).Nodup) : l.lookup k = some v := by
  induction l with
  | nil => simp at hm
  | cons p t ih =>
    rcases p with ⟨a, b⟩
    simp only [List.map_cons, List.nodup_cons] at hd
    rw [lookup_cons_eq]
    rcases List.mem_cons.mp hm with h | h
    · cases h; simp
    · have hk : k ≠ a := by
        intro he
        exact hd.1 (he ▸ List.mem_map.mpr ⟨(k, v), h, rfl⟩)
      rw [if_neg hk]
      exact ih h hd.2

theorem mem_of_lookup_eq_some {β : Type} (l : List (String × β)) (k : String) (v : β)
    (h : l.lookup k = some v) : (k, v) ∈ l := by
  induction l with
  | nil => simp [List.lookup] at h
  | cons p t ih =>
    rcases p with ⟨a, b⟩
    rw [lookup_cons_eq] at h
    by_cases hk : k = a
    · rw [if_pos hk] at h
      cases h
      subst hk
      exact List.mem_cons_self _ _
    · rw [if_neg hk] at h
      exact List.mem_cons_of_mem _ (ih h)

/-- After dropping the longest block satisfying `p`, no leading block
satisfying `p` remains. -/
theorem takeWhile_dropWhile_self (p : α → Bool) :
    ∀ l : List α, (l.dropWhile p).takeWhile p = []
  | [] => rfl
  | a :: t => by
    by_cases h : p a
    · simp only [List.dropWhile, h]
      exact takeWhile_dropWhile_self p t
    · simp [List.dropWhile, List.takeWhile, h]

theorem attrBlock_mem_notName (cfg : AnnotConfig) (l : List RawAnnot) (a : RawAnnot)
    (h : a ∈ attrBlock cfg l) : a.tag ≠ cfg.nameTag := by
  have := List.mem_takeWhile_imp h
  simpa [notName] using this

/-- A stream splits into its leading attribute block and the remainder. -/
theorem attrBlock_append_nextBlock (cfg : AnnotConfig) (l : List RawAnnot) :
    attrBlock cfg l ++ nextBlock cfg l = l := by
  unfold attrBlock nextBlock
  exact List.takeWhile_append_dropWhile _ _

/-- The remainder after the leading attribute block is empty or starts
with a name tag. -/
theorem nextBlock_startsName (cfg : AnnotConfig) (l : List RawAnnot) :
    (nextBlock cfg l).takeWhile (notName cfg) = [] := by
  unfold nextBlock
  exact takeWhile_dropWhile_self _ _

/-- Filtering with a predicate implying "is a name tag" skips a block of
non-name tuples. -/
theorem filter_name_skip (cfg : AnnotConfig) (p : RawAnnot → Bool)
    (hp : ∀ a, p a = true → a.tag = cfg.nameTag)
    (w l : List RawAnnot) (hw : ∀ a ∈ w, a.tag ≠ cfg.nameTag) :
    (w ++ l).filter p = l.filter p := by
  induction w with
  | nil => rfl
  | cons b t ih =>
    have hb : p b = false := by
      cases hpb : p b
      · rfl
      · exact absurd (hp b hpb) (hw b (List.mem_cons_self b t))
    simp only [List.cons_append, List.filter_cons, hb]
    exact ih fun a ha => hw a (List.mem_cons_of_mem _ ha)

theorem namesOf_skip (cfg : AnnotConfig) (w l : List RawAnnot)
    (hw : ∀ a ∈ w, a.tag ≠ cfg.nameTag) :
    namesOf cfg (w ++ l) = namesOf cfg l := by
  unfold namesOf
  rw [filter_name_skip cfg _ (fun a ha => by simpa using ha) w l hw]

theorem nameTuples_skip (cfg : AnnotConfig) (X : String) (w l : List RawAnnot)
    (hw : ∀ a ∈ w, a.tag ≠ cfg.nameTag) :
    nameTuples cfg X (w ++ l) = nameTuples cfg X l := by
  unfold nameTuples
  refine filter_name_skip cfg _ (fun a ha => ?_) w l hw
  exact beq_iff_eq.mp (Bool.and_elim_left ha)

theorem firstSeg_skip (cfg : AnnotConfig) (X : String) (w l : List RawAnnot)
    (hw : ∀ a ∈ w, a.tag ≠ cfg.nameTag) :
    firstSeg cfg X (w ++ l) = firstSeg cfg X l := by
  induction w with
  | nil => rfl
  | cons b t ih =>
    have hb : (b.tag == cfg.nameTag && b.value == X) = false := by
      have := hw b (List.mem_cons_self b t)
      simp [this]
    simp only [List.cons_append, firstSeg, hb]
    simp only [Bool.false_eq_true, if_false]
    exact ih fun a ha => hw a (List.mem_cons_of_mem _ ha)

/-- The `OrphanAttribute` diagnostic carried by an orphan tuple. -/
def orphanOf (a : RawAnnot) : Diagnostic :=
  .OrphanAttribute a.tag a.value a.file a.line

/-- The `DuplicateName` diagnostic carried by a duplicate name tuple. -/
def dupOf (a : RawAnnot) : Diagnostic :=
  .DuplicateName a.value a.file a.line

theorem updateRecords_append_last (cfg : AnnotConfig) (rs : List (String × Record))
    (n : String) (r : Record) (a : RawAnnot) (h : n ∉ rs.map Prod.fst) :
    updateRecords cfg (rs ++ [(n, r)]) n a = rs ++ [(n, r.addAttr cfg a)] := by
  unfold updateRecords
  rw [List.map_append]
  congr 1
  · induction rs with
    | nil => rfl
    | cons p t ih =>
      simp only [List.map_cons, List.mem_cons] at h
      push_neg at h
      rw [List.map_cons, if_neg (fun he => h.1 he.symm), ih h.2]
  · simp

/-- Folding an attribute block into a state whose open record is the last
entry of the mapping updates exactly that record. -/
theorem foldl_attrs_inRecord (cfg : AnnotConfig) :
    ∀ (attrs : List RawAnnot) (rs : List (String × Record)) (n : String) (r : Record)
      (d : List Diagnostic),
      (∀ a ∈ attrs, a.tag ≠ cfg.nameTag) → n ∉ rs.map Prod.fst →
      attrs.foldl (step cfg) ⟨rs ++ [(n, r)], .inRecord n, d⟩ =
        ⟨rs ++ [(n, attrs.foldl (Record.addAttr cfg) r)], .inRecord n, d⟩ := by
  intro attrs
  induction attrs with
  | nil => intro rs n r d _ _; rfl
  | cons a t ih =>
    intro rs n r d ha hn
    have hstep : step cfg ⟨rs ++ [(n, r)], .inRecord n, d⟩ a =
        ⟨rs ++ [(n, r.addAttr cfg a)], .inRecord n, d⟩ := by
      unfold step
      rw [if_neg (ha a (List.mem_cons_self a t))]
      simp only
      rw [updateRecords_append_last cfg rs n r a hn]
    rw [List.foldl_cons, hstep, List.foldl_cons,
      ih rs n (r.addAttr cfg a) d (fun b hb => ha b (List.mem_cons_of_mem _ hb)) hn]

/-- Folding non-name tuples in discarding mode leaves the state
unchanged. -/
theorem foldl_attrs_discarding (cfg : AnnotConfig) :
    ∀ (attrs : List RawAnnot) (st : AsmState),
      (∀ a ∈ attrs, a.tag ≠ cfg.nameTag) → st.mode = .discarding →
      attrs.foldl (step cfg) st = st := by
  intro attrs
  induction attrs with
  | nil => intro st _ _; rfl
  | cons a t ih =>
    intro st ha hm
    have hstep : step cfg st a = st := by
      unfold step
      rw [if_neg (ha a (List.mem_cons_self a t)), hm]
    rw [List.foldl_cons, hstep]
    exact ih st (fun b hb => ha b (List.mem_cons_of_mem _ hb)) hm

/-- Folding non-name tuples before the first name tag reports exactly one
`OrphanAttribute` per tuple and touches nothing else. -/
theorem foldl_attrs_awaiting (cfg : AnnotConfig) :
    ∀ (attrs : List RawAnnot) (rs : List (String × Record)) (d : List Diagnostic),
      (∀ a ∈ attrs, a.tag ≠ cfg.nameTag) →
      attrs.foldl (step cfg) ⟨rs, .awaitingName, d⟩ =
        ⟨rs, .awaitingName, d ++ attrs.map orphanOf⟩ := by
  intro attrs
  induction attrs with
  | nil => intro rs d _; simp
  | cons a t ih =>
    intro rs d ha
    have hstep : step cfg ⟨rs, .awaitingName, d⟩ a =
        ⟨rs, .awaitingName, d ++ [orphanOf a]⟩ := by
      unfold step
      rw [if_neg (ha a (List.mem_cons_self a t))]
      rfl
    rw [List.foldl_cons, hstep, ih rs (d ++ [orphanOf a])
      (fun b hb => ha b (List.mem_cons_of_mem _ hb))]
    simp [orphanOf]

theorem gRecords_skip (cfg : AnnotConfig) (seen : String → Bool) :
    ∀ (w l : List RawAnnot), (∀ a ∈ w, a.tag ≠ cfg.nameTag) →
      gRecords cfg seen (w ++ l) = gRecords cfg seen l := by
  intro w
  induction w with
  | nil => intro l _; rfl
  | cons b t ih =>
    intro l hw
    rw [List.cons_append, gRecords, if_neg (hw b (List.mem_cons_self b t))]
    exact ih l fun a ha => hw a (List.mem_cons_of_mem _ ha)

theorem gDiags_skip (cfg : AnnotConfig) (seen : String → Bool) :
    ∀ (w l : List RawAnnot), (∀ a ∈ w, a.tag ≠ cfg.nameTag) →
      gDiags cfg seen (w ++ l) = w.map orphanOf ++ gDiags cfg seen l := by
  intro w
  induction w with
  | nil => intro l _; rfl
  | cons b t ih =>
    intro l hw
    rw [List.cons_append, gDiags, if_neg (hw b (List.mem_cons_self b t))]
    rw [ih l fun a ha => hw a (List.mem_cons_of_mem _ ha)]
    rfl

/-- Closed form of the assembler fold from a name-tag boundary: the
mapping grows by the reference records and the diagnostics by the
reference diagnostics, with the already-seen names given by the keys of
the starting mapping. -/
theorem foldl_closed (cfg : AnnotConfig) :
    ∀ (N : Nat) (s : List RawAnnot), s.length ≤ N →
    ∀ (rs : List (String × Record)) (m : AsmMode) (d : List Diagnostic),
      s.takeWhile (notName cfg) = [] →
      ∃ m2, s.foldl (step cfg) ⟨rs, m, d⟩ =
        ⟨rs ++ gRecords cfg (fun x => (rs.lookup x).isSome) s, m2,
         d ++ gDiags cfg (fun x => (rs.lookup x).isSome) s⟩ := by
  intro N
  induction N with
  | zero =>
    intro s hs rs m d _
    have hnil : s = [] := List.length_eq_zero.mp (Nat.le_zero.mp hs)
    subst hnil
    exact ⟨m, by simp [gRecords, gDiags]⟩
  | succ N ih =>
    intro s hs rs m d hstart
    match s with
    | [] => exact ⟨m, by simp [gRecords, gDiags]⟩
    | a :: t =>
      have hname : a.tag = cfg.nameTag := by
        by_contra hc
        have hn : notName cfg a = true := by simp [notName, hc]
        rw [List.takeWhile_cons, if_pos hn] at hstart
        exact List.cons_ne_nil _ _ hstart
      have htlen : t.length ≤ N := Nat.le_of_succ_le_succ hs
      have hblen : (nextBlock cfg t).length ≤ N :=
        Nat.le_trans (dropWhile_length_le _ t) htlen
      have hsplit := attrBlock_append_nextBlock cfg t
      cases hlook : rs.lookup a.value with
      | none =>
        have hstep : step cfg ⟨rs, m, d⟩ a =
            ⟨rs ++ [(a.value, Record.new a)], .inRecord a.value, d⟩ := by
          unfold step
          rw [if_pos hname]
          simp only [hlook]
        have hfresh : a.value ∉ rs.map Prod.fst := (lookup_eq_none_iff rs a.value).mp hlook
        have hfold : (a :: t).foldl (step cfg) ⟨rs, m, d⟩ =
            (nextBlock cfg t).foldl (step cfg)
              ⟨rs ++ [(a.value, buildRecord cfg a (attrBlock cfg t))], .inRecord a.value, d⟩ := by
          conv_lhs => rw [List.foldl_cons, hstep, ← hsplit]
          rw [List.foldl_append,
            foldl_attrs_inRecord cfg (attrBlock cfg t) rs a.value (Record.new a) d
              (fun b hb => attrBlock_mem_notName cfg t b hb) hfresh]
          rfl
        obtain ⟨m2, heq⟩ := ih (nextBlock cfg t) hblen
          (rs ++ [(a.value, buildRecord cfg a (attrBlock cfg t))]) (.inRecord a.value) d
          (nextBlock_startsName cfg t)
        refine ⟨m2, ?_⟩
        rw [hfold, heq]
        have hseen : (fun x => ((rs ++ [(a.value, buildRecord cfg a (attrBlock cfg t))]).lookup x).isSome) =
            (fun x => ((rs.lookup x).isSome || x == a.value)) := by
          funext x
          rw [lookup_append]
          cases hx : rs.lookup x with
          | some v => simp
          | none =>
            rw [lookup_cons_eq]
            by_cases hxa : x = a.value
            · simp [hxa]
            · simp [hxa, beq_eq_false_iff_ne.mpr hxa]
        rw [hseen]
        have hrecs : gRecords cfg (fun x => (rs.lookup x).isSome) (a :: t) =
            (a.value, buildRecord cfg a (attrBlock cfg t)) ::
              gRecords cfg (fun x => ((rs.lookup x).isSome || x == a.value)) (nextBlock cfg t) := by
          rw [gRecords, if_pos hname]
          simp [hlook]
        have hdgs : gDiags cfg (fun x => (rs.lookup x).isSome) (a :: t) =
            gDiags cfg (fun x => ((rs.lookup x).isSome || x == a.value)) (nextBlock cfg t) := by
          rw [gDiags, if_pos hname]
          simp [hlook]
        rw [hrecs, hdgs]
        simp
      | some w =>
        have hstep : step cfg ⟨rs, m, d⟩ a =
            ⟨rs, .discarding, d ++ [dupOf a]⟩ := by
          unfold step
          rw [if_pos hname]
          simp only [hlook]
          rfl
        have hfold : (a :: t).foldl (step cfg) ⟨rs, m, d⟩ =
            (nextBlock cfg t).foldl (step cfg) ⟨rs, .discarding, d ++ [dupOf a]⟩ := by
          conv_lhs => rw [List.foldl_cons, hstep, ← hsplit]
          rw [List.foldl_append,
            foldl_attrs_discarding cfg (attrBlock cfg t) _
              (fun b hb => attrBlock_mem_notName cfg t b hb) rfl]
        obtain ⟨m2, heq⟩ := ih (nextBlock cfg t) hblen rs .discarding (d ++ [dupOf a])
          (nextBlock_startsName cfg t)
        refine ⟨m2, ?_⟩
        rw [hfold, heq]
        have hrecs : gRecords cfg (fun x => (rs.lookup x).isSome) (a :: t) =
            gRecords cfg (fun x => (rs.lookup x).isSome) (nextBlock cfg t) := by
          rw [gRecords, if_pos hname]
          simp [hlook]
        have hdgs : gDiags cfg (fun x => (rs.lookup x).isSome) (a :: t) =
            dupOf a :: gDiags cfg (fun x => (rs.lookup x).isSome) (nextBlock cfg t) := by
          rw [gDiags, if_pos hname]
          simp [hlook, dupOf]
        rw [hrecs, hdgs]
        simp

/-- Closed form of the whole assembler: the mapping is the reference
mapping and the diagnostics are the orphan diagnostics of the leading
attribute block followed by the reference diagnostics. -/
theorem assemble_closed (cfg : AnnotConfig) (s : List RawAnnot) :
    ∃ m2, assemble cfg s =
      ⟨gRecords cfg (fun _ => false) s, m2, gDiags cfg (fun _ => false) s⟩ := by
  have hw : ∀ a ∈ s.takeWhile (notName cfg), a.tag ≠ cfg.nameTag := by
    intro a ha
    have := List.mem_takeWhile_imp ha
    simpa [notName] using this
  have hsplit : s.takeWhile (notName cfg) ++ s.dropWhile (notName cfg) = s :=
    List.takeWhile_append_dropWhile _ _
  obtain ⟨m2, heq⟩ := foldl_closed cfg (s.dropWhile (notName cfg)).length
    (s.dropWhile (notName cfg)) (Nat.le_refl _) [] .awaitingName
    ((s.takeWhile (notName cfg)).map orphanOf) (takeWhile_dropWhile_self _ _)
  refine ⟨m2, ?_⟩
  have hfold : assemble cfg s =
      (s.dropWhile (notName cfg)).foldl (step cfg)
        ⟨[], .awaitingName, (s.takeWhile (notName cfg)).map orphanOf⟩ := by
    unfold assemble
    conv_lhs => rw [← hsplit]
    rw [List.foldl_append, foldl_attrs_awaiting cfg _ [] [] hw]
    simp
  rw [hfold, heq]
  have hseen : (fun x => ((List.lookup x ([] : List (String × Record)))).isSome) =
      (fun _ : String => false) := rfl
  conv_rhs => rw [← hsplit]
  rw [hseen, gRecords_skip cfg _ _ _ hw, gDiags_skip cfg _ _ _ hw]
  simp

/-! ### From the reference mapping to the per-record value properties -/

theorem getLast?_cons_eq (x : α) (l : List α) :
    (x :: l).getLast? = match l.getLast? with
      | some v => some v
      | none => some x := by
  induction l generalizing x with
  | nil => rfl
  | cons y t ih =>
    rw [List.getLast?_cons_cons, ih y]
    cases t.getLast? <;> simp [ih]

theorem lastVal_nil (t : String) : lastVal t [] = none := rfl

theorem lastVal_cons (t : String) (a : RawAnnot) (attrs : List RawAnnot) :
    lastVal t (a :: attrs) =
      match lastVal t attrs with
      | some v => some v
      | none => if a.tag == t then some a.value else none := by
  unfold lastVal
  rw [List.filter_cons]
  by_cases h : a.tag == t
  · rw [if_pos h, List.map_cons, getLast?_cons_eq]
    cases ((attrs.filter fun b => b.tag == t).map RawAnnot.value).getLast? <;> simp [h]
  · simp only [h]
    cases h2 : ((attrs.filter fun b => b.tag == t).map RawAnnot.value).getLast? <;> simp [h, h2]

theorem lookup_setSingle_self (l : List (String × String)) (t v : String) :
    (setSingle l t v).lookup t = some v := by
  induction l with
  | nil => simp [setSingle, lookup_cons_eq]
  | cons p rest ih =>
    rcases p with ⟨k, w⟩
    unfold setSingle
    by_cases h : k = t
    · rw [if_pos h, lookup_cons_eq, if_pos h.symm]
    · rw [if_neg h, lookup_cons_eq, if_neg (fun he => h he.symm)]
      exact ih

theorem lookup_setSingle_ne (l : List (String × String)) (u v t : String) (h : t ≠ u) :
    (setSingle l u v).lookup t = l.lookup t := by
  induction l with
  | nil => simp [setSingle, lookup_cons_eq, h]
  | cons p rest ih =>
    rcases p with ⟨k, w⟩
    unfold setSingle
    by_cases hk : k = u
    · subst hk
      rw [if_pos rfl, lookup_cons_eq, lookup_cons_eq, if_neg h, if_neg h]
    · rw [if_neg hk, lookup_cons_eq, lookup_cons_eq]
      by_cases hkt : t = k
      · rw [if_pos hkt, if_pos hkt]
      · rw [if_neg hkt, if_neg hkt]
        exact ih

theorem lookup_addMulti_self (l : List (String × List String)) (t v : String) :
    (addMulti l t v).lookup t = some (((l.lookup t).getD []) ++ [v]) := by
  induction l with
  | nil => simp [addMulti, lookup_cons_eq, List.lookup]
  | cons p rest ih =>
    rcases p with ⟨k, ws⟩
    unfold addMulti
    by_cases h : k = t
    · rw [if_pos h, lookup_cons_eq, if_pos h.symm, lookup_cons_eq, if_pos h.symm]
      rfl
    · rw [if_neg h, lookup_cons_eq, if_neg (fun he => h he.symm), lookup_cons_eq,
        if_neg (fun he => h he.symm)]
      exact ih

theorem lookup_addMulti_ne (l : List (String × List String)) (u v t : String) (h : t ≠ u) :
    (addMulti l u v).lookup t = l.lookup t := by
  induction l with
  | nil => simp [addMulti, lookup_cons_eq, h]
  | cons p rest ih =>
    rcases p with ⟨k, ws⟩
    unfold addMulti
    by_cases hk : k = u
    · subst hk
      rw [if_pos rfl, lookup_cons_eq, lookup_cons_eq, if_neg h, if_neg h]
    · rw [if_neg hk, lookup_cons_eq, lookup_cons_eq]
      by_cases hkt : t = k
      · rw [if_pos hkt, if_pos hkt]
      · rw [if_neg hkt, if_neg hkt]
        exact ih

/-- Folding an attribute block: a single-value tag ends at its last
occurrence in the block (or keeps its previous value). -/
theorem single_fold (cfg : AnnotConfig) :
    ∀ (attrs : List RawAnnot) (r : Record) (t : String), cfg.isMulti t = false →
      ((attrs.foldl (Record.addAttr cfg) r).single).lookup t =
        match lastVal t attrs with
        | some v => some v
        | none => r.single.lookup t := by
  intro attrs
  induction attrs with
  | nil => intro r t _; simp [lastVal_nil]
  | cons a attrs ih =>
    intro r t hm
    rw [List.foldl_cons, ih (r.addAttr cfg a) t hm, lastVal_cons]
    by_cases hat : a.tag == t
    · have hteq : a.tag = t := beq_iff_eq.mp hat
      have hsm : cfg.isMulti a.tag = false := hteq ▸ hm
      have hsingle : (r.addAttr cfg a).single.lookup t = some a.value := by
        unfold Record.addAttr
        rw [hsm]
        simp only [Bool.false_eq_true, if_false]
        rw [hteq, lookup_setSingle_self]
      rw [hsingle]
      cases lastVal t attrs <;> simp [hat]
    · have hne : t ≠ a.tag := fun he => hat (beq_iff_eq.mpr he.symm)
      have hsingle : (r.addAttr cfg a).single.lookup t = r.single.lookup t := by
        unfold Record.addAttr
        by_cases hmu : cfg.isMulti a.tag
        · rw [if_pos hmu]
        · rw [if_neg hmu]
          exact lookup_setSingle_ne r.single a.tag a.value t hne
      rw [hsingle]
      cases lastVal t attrs <;> simp [hat]

/-- Folding an attribute block: a multi-value tag accumulates every
occurrence in block order. -/
theorem multi_fold (cfg : AnnotConfig) :
    ∀ (attrs : List RawAnnot) (r : Record) (t : String), cfg.isMulti t = true →
      (((attrs.foldl (Record.addAttr cfg) r).multi).lookup t).getD [] =
        ((r.multi.lookup t).getD []) ++ (attrs.filter (fun a => a.tag == t)).map RawAnnot.value := by
  intro attrs
  induction attrs with
  | nil => intro r t _; simp
  | cons a attrs ih =>
    intro r t hm
    rw [List.foldl_cons, ih (r.addAttr cfg a) t hm, List.filter_cons]
    by_cases hat : a.tag == t
    · have hteq : a.tag = t := beq_iff_eq.mp hat
      have hmu : cfg.isMulti a.tag = true := hteq ▸ hm
      have hmulti : ((r.addAttr cfg a).multi.lookup t).getD [] =
          ((r.multi.lookup t).getD []) ++ [a.value] := by
        unfold Record.addAttr
        rw [hmu]
        simp only [if_true]
        rw [hteq, lookup_addMulti_self]
        rfl
      rw [hmulti]
      simp [hat, List.append_assoc]
    · have hne : t ≠ a.tag := fun he => hat (beq_iff_eq.mpr he.symm)
      have hmulti : (r.addAttr cfg a).multi.lookup t = r.multi.lookup t := by
        unfold Record.addAttr
        by_cases hmu : cfg.isMulti a.tag
        · rw [if_pos hmu]
          exact lookup_addMulti_ne r.multi a.tag a.value t hne
        · rw [if_neg hmu]
      rw [hmulti]
      simp [hat]

theorem buildRecord_provenance (cfg : AnnotConfig) :
    ∀ (attrs : List RawAnnot) (r : Record),
      (attrs.foldl (Record.addAttr cfg) r).file = r.file ∧
      (attrs.foldl (Record.addAttr cfg) r).line = r.line := by
  intro attrs
  induction attrs with
  | nil => intro r; exact ⟨rfl, rfl⟩
  | cons b attrs ih =>
    intro r
    rw [List.foldl_cons]
    have hb : (r.addAttr cfg b).file = r.file ∧ (r.addAttr cfg b).line = r.line := by
      unfold Record.addAttr
      by_cases hmu : cfg.isMulti b.tag
      · rw [if_pos hmu]; exact ⟨rfl, rfl⟩
      · rw [if_neg hmu]; exact ⟨rfl, rfl⟩
    rw [← hb.1, ← hb.2]
    exact ih (r.addAttr cfg b)

theorem namesOf_cons (cfg : AnnotConfig) (a : RawAnnot) (t : List RawAnnot) :
    namesOf cfg (a :: t) =
      if a.tag = cfg.nameTag then a.value :: namesOf cfg t else namesOf cfg t := by
  unfold namesOf
  rw [List.filter_cons]
  by_cases h : a.tag = cfg.nameTag
  · simp [h]
  · simp [h]

theorem segments_keys (cfg : AnnotConfig) :
    ∀ (N : Nat) (s : List RawAnnot), s.length ≤ N →
      (segments cfg s).map (fun p => p.1.value) = namesOf cfg s := by
  intro N
  induction N with
  | zero =>
    intro s hs
    have hnil : s = [] := List.length_eq_zero.mp (Nat.le_zero.mp hs)
    subst hnil
    simp [segments, namesOf]
  | succ N ih =>
    intro s hs
    match s with
    | [] => simp [segments, namesOf]
    | a :: t =>
      have htlen : t.length ≤ N := Nat.le_of_succ_le_succ hs
      have hblen : (nextBlock cfg t).length ≤ N :=
        Nat.le_trans (dropWhile_length_le _ t) htlen
      rw [namesOf_cons]
      by_cases hname : a.tag = cfg.nameTag
      · rw [segments, if_pos hname, if_pos hname, List.map_cons, ih (nextBlock cfg t) hblen]
        have : namesOf cfg t = namesOf cfg (nextBlock cfg t) := by
          conv_lhs => rw [← attrBlock_append_nextBlock cfg t]
          exact namesOf_skip cfg _ _ fun b hb => attrBlock_mem_notName cfg t b hb
        rw [this]
      · rw [segments, if_neg hname, if_neg hname]
        exact ih t htlen

theorem gRecords_eq_segments (cfg : AnnotConfig) :
    ∀ (N : Nat) (s : List RawAnnot), s.length ≤ N → (namesOf cfg s).Nodup →
    ∀ (seen : String → Bool), (∀ x ∈ namesOf cfg s, seen x = false) →
      gRecords cfg seen s =
        (segments cfg s).map (fun p => (p.1.value, buildRecord cfg p.1 p.2)) := by
  intro N
  induction N with
  | zero =>
    intro s hs _ seen _
    have hnil : s = [] := List.length_eq_zero.mp (Nat.le_zero.mp hs)
    subst hnil
    simp [segments, gRecords]
  | succ N ih =>
    intro s hs hnd seen hfresh
    match s with
    | [] => simp [segments, gRecords]
    | a :: t =>
      have htlen : t.length ≤ N := Nat.le_of_succ_le_succ hs
      have hblen : (nextBlock cfg t).length ≤ N :=
        Nat.le_trans (dropWhile_length_le _ t) htlen
      by_cases hname : a.tag = cfg.nameTag
      · have hnames : namesOf cfg (a :: t) = a.value :: namesOf cfg (nextBlock cfg t) := by
          rw [namesOf_cons, if_pos hname]
          congr 1
          conv_lhs => rw [← attrBlock_append_nextBlock cfg t]
          exact namesOf_skip cfg _ _ fun b hb => attrBlock_mem_notName cfg t b hb
        have hseen : seen a.value = false := by
          apply hfresh
          rw [hnames]
          exact List.mem_cons_self _ _
        rw [hnames, List.nodup_cons] at hnd
        rw [gRecords, if_pos hname, hseen]
        simp only [Bool.false_eq_true, if_false]
        rw [segments, if_pos hname, List.map_cons]
        congr 1
        apply ih (nextBlock cfg t) hblen hnd.2
        intro x hx
        have hxs : x ∈ namesOf cfg (a :: t) := by
          rw [hnames]
          exact List.mem_cons_of_mem _ hx
        rw [hfresh x hxs]
        simp only [Bool.false_or]
        exact beq_eq_false_iff_ne.mpr fun he => hnd.1 (he ▸ hx)
      · rw [gRecords, if_neg hname, segments, if_neg hname]
        have hnd2 : (namesOf cfg t).Nodup := by
          rw [namesOf_cons, if_neg hname] at hnd
          exact hnd
        apply ih t htlen hnd2
        intro x hx
        apply hfresh
        rw [namesOf_cons, if_neg hname]
        exact hx

/-- C1: for every well-formed `RawAnnotation` stream (every attribute tag
preceded by some name tag, no duplicate names), the Record Assembler
produces exactly one Record per distinct name tag (the mapping's keys are
exactly the stream's name-tag values), and for each record — identified
with its segment, the tuples between its name tag and the next name tag
or the end of the stream — every single-value tag holds the last
occurrence of that tag in the segment, and every multi-value tag holds
all occurrences in stream order. -/
theorem C1_assembler_wellformed (cfg : AnnotConfig) (s : List RawAnnot)
    (h1 : s.takeWhile (notName cfg) = []) (h2 : (namesOf cfg s).Nodup) :
    ((assemble cfg s).records.map Prod.fst = namesOf cfg s) ∧
    (∀ p ∈ segments cfg s, ∃ r,
      (assemble cfg s).records.lookup p.1.value = some r ∧
      r.file = p.1.file ∧ r.line = p.1.line ∧
      (∀ t, cfg.isMulti t = false → r.single.lookup t = lastVal t p.2) ∧
      (∀ t, cfg.isMulti t = true →
        multiVals r t = (p.2.filter (fun a => a.tag == t)).map RawAnnot.value)) := by
  obtain ⟨m2, hcl⟩ := assemble_closed cfg s
  have hrecs : (assemble cfg s).records =
      (segments cfg s).map (fun p => (p.1.value, buildRecord cfg p.1 p.2)) := by
    rw [hcl]
    exact gRecords_eq_segments cfg s.length s (Nat.le_refl _) h2 _ (fun x _ => rfl)
  have hkeys : (assemble cfg s).records.map Prod.fst = namesOf cfg s := by
    rw [hrecs, List.map_map]
    exact segments_keys cfg s.length s (Nat.le_refl _)
  refine ⟨hkeys, ?_⟩
  intro p hp
  refine ⟨buildRecord cfg p.1 p.2, ?_, ?_, ?_, ?_, ?_⟩
  · apply lookup_of_mem_nodup
    · rw [hrecs]
      exact List.mem_map.mpr ⟨p, hp, rfl⟩
    · rw [hkeys]
      exact h2
  · exact (buildRecord_provenance cfg p.2 (Record.new p.1)).1
  · exact (buildRecord_provenance cfg p.2 (Record.new p.1)).2
  · intro t ht
    unfold buildRecord
    rw [single_fold cfg p.2 (Record.new p.1) t ht]
    cases lastVal t p.2 <;> simp [Record.new, List.lookup]
  · intro t ht
    unfold multiVals buildRecord
    rw [multi_fold cfg p.2 (Record.new p.1) t ht]
    simp [Record.new, List.lookup]

/-! ### Duplicate-name and orphan-attribute diagnostics -/

/-- Is this diagnostic a `DuplicateName` for the entity name `X`? -/
def isDupName (X : String) : Diagnostic → Bool
  | .DuplicateName n _ _ => n == X
  | _ => false

/-- Is this diagnostic an `OrphanAttribute`? -/
def isOrphanDiag : Diagnostic → Bool
  | .OrphanAttribute _ _ _ _ => true
  | _ => false

theorem nameTuples_cons (cfg : AnnotConfig) (X : String) (a : RawAnnot) (t : List RawAnnot) :
    nameTuples cfg X (a :: t) =
      if (a.tag == cfg.nameTag && a.value == X) = true then a :: nameTuples cfg X t
      else nameTuples cfg X t := by
  unfold nameTuples
  rw [List.filter_cons]

theorem nameTuples_tail_eq (cfg : AnnotConfig) (X : String) (t : List RawAnnot) :
    nameTuples cfg X t = nameTuples cfg X (nextBlock cfg t) := by
  conv_lhs => rw [← attrBlock_append_nextBlock cfg t]
  exact nameTuples_skip cfg X _ _ fun b hb => attrBlock_mem_notName cfg t b hb

theorem firstSeg_tail_eq (cfg : AnnotConfig) (X : String) (t : List RawAnnot) :
    firstSeg cfg X t = firstSeg cfg X (nextBlock cfg t) := by
  conv_lhs => rw [← attrBlock_append_nextBlock cfg t]
  exact firstSeg_skip cfg X _ _ fun b hb => attrBlock_mem_notName cfg t b hb

/-- The `DuplicateName X` diagnostics are exactly one per repeated
occurrence of the name `X`: all `X`-name-tuples except the first (or all
of them when `X` was already seen). -/
theorem gDiags_filter_dup (cfg : AnnotConfig) (X : String) :
    ∀ (N : Nat) (s : List RawAnnot), s.length ≤ N → ∀ (seen : String → Bool),
      (gDiags cfg seen s).filter (isDupName X) =
        (if seen X = true then nameTuples cfg X s else (nameTuples cfg X s).drop 1).map dupOf := by
  intro N
  induction N with
  | zero =>
    intro s hs seen
    have hnil : s = [] := List.length_eq_zero.mp (Nat.le_zero.mp hs)
    subst hnil
    cases hX : seen X <;> simp [gDiags, nameTuples]
  | succ N ih =>
    intro s hs seen
    match s with
    | [] => cases hX : seen X <;> simp [gDiags, nameTuples]
    | a :: t =>
      have htlen : t.length ≤ N := Nat.le_of_succ_le_succ hs
      have hblen : (nextBlock cfg t).length ≤ N :=
        Nat.le_trans (dropWhile_length_le _ t) htlen
      by_cases hname : a.tag = cfg.nameTag
      · have htuples : nameTuples cfg X t = nameTuples cfg X (nextBlock cfg t) :=
          nameTuples_tail_eq cfg X t
        by_cases hXv : a.value = X
        · have hcond : (a.tag == cfg.nameTag && a.value == X) = true := by
            rw [beq_iff_eq.mpr hname, beq_iff_eq.mpr hXv]
            rfl
          rw [nameTuples_cons, if_pos hcond, htuples]
          cases hseen : seen a.value
          · have hsX : seen X = false := hXv ▸ hseen
            rw [gDiags, if_pos hname, hseen]
            simp only [Bool.false_eq_true, if_false]
            rw [ih (nextBlock cfg t) hblen]
            have hseen2 : (seen X || X == a.value) = true := by
              rw [beq_iff_eq.mpr hXv.symm]
              simp
            rw [hseen2, hsX]
            simp
          · have hsX : seen X = true := hXv ▸ hseen
            rw [gDiags, if_pos hname, hseen]
            simp only [if_true]
            rw [List.filter_cons]
            have hdup : isDupName X (Diagnostic.DuplicateName a.value a.file a.line) = true := by
              simp [isDupName, hXv]
            rw [hdup]
            simp only [if_true]
            rw [ih (nextBlock cfg t) hblen, hsX]
            simp [dupOf]
        · have hcond : (a.tag == cfg.nameTag && a.value == X) = false := by
            have : (a.value == X) = false := beq_eq_false_iff_ne.mpr hXv
            simp [this]
          rw [nameTuples_cons, hcond]
          simp only [Bool.false_eq_true, if_false]
          rw [htuples]
          cases hseen : seen a.value
          · rw [gDiags, if_pos hname, hseen]
            simp only [Bool.false_eq_true, if_false]
            rw [ih (nextBlock cfg t) hblen]
            have hseen2 : (seen X || X == a.value) = seen X := by
              rw [beq_eq_false_iff_ne.mpr fun he => hXv he.symm]
              simp
            rw [hseen2]
          · rw [gDiags, if_pos hname, hseen]
            simp only [if_true]
            rw [List.filter_cons]
            have hdup : isDupName X (Diagnostic.DuplicateName a.value a.file a.line) = false := by
              simp [isDupName, hXv]
            rw [hdup]
            simp only [Bool.false_eq_true, if_false]
            exact ih (nextBlock cfg t) hblen seen
      · have hcond : (a.tag == cfg.nameTag && a.value == X) = false := by
          have : (a.tag == cfg.nameTag) = false := beq_eq_false_iff_ne.mpr hname
          simp [this]
        rw [nameTuples_cons, hcond]
        simp only [Bool.false_eq_true, if_false]
        rw [gDiags, if_neg hname, List.filter_cons]
        have horph : isDupName X (Diagnostic.OrphanAttribute a.tag a.value a.file a.line) = false := by
          simp [isDupName]
        rw [horph]
        simp only [Bool.false_eq_true, if_false]
        exact ih t htlen seen

/-- A name already seen never re-enters the reference mapping. -/
theorem gRecords_not_mem (cfg : AnnotConfig) (X : String) :
    ∀ (N : Nat) (s : List RawAnnot), s.length ≤ N → ∀ (seen : String → Bool),
      seen X = true → X ∉ (gRecords cfg seen s).map Prod.fst := by
  intro N
  induction N with
  | zero =>
    intro s hs seen _
    have hnil : s = [] := List.length_eq_zero.mp (Nat.le_zero.mp hs)
    subst hnil
    simp [gRecords]
  | succ N ih =>
    intro s hs seen hX
    match s with
    | [] => simp [gRecords]
    | a :: t =>
      have htlen : t.length ≤ N := Nat.le_of_succ_le_succ hs
      have hblen : (nextBlock cfg t).length ≤ N :=
        Nat.le_trans (dropWhile_length_le _ t) htlen
      by_cases hname : a.tag = cfg.nameTag
      · cases hseen : seen a.value
        · rw [gRecords, if_pos hname, hseen]
          simp only [Bool.false_eq_true, if_false, List.map_cons, List.mem_cons]
          rintro (he | hm)
          · rw [he] at hX
            rw [hX] at hseen
            cases hseen
          · exact ih (nextBlock cfg t) hblen _ (by rw [hX]; rfl) hm
        · rw [gRecords, if_pos hname, hseen]
          simp only [if_true]
          exact ih (nextBlock cfg t) hblen seen hX
      · rw [gRecords, if_neg hname]
        exact ih t htlen seen hX

/-- The reference mapping holds exactly one record for `X`, built from the
first `X` name tuple and its attribute block. -/
theorem gRecords_first (cfg : AnnotConfig) (X : String) :
    ∀ (N : Nat) (s : List RawAnnot), s.length ≤ N → ∀ (seen : String → Bool),
      seen X = false → ∀ x1 r1, nameTuples cfg X s = x1 :: r1 →
      ∃ sg, firstSeg cfg X s = some (x1, sg) ∧
        (gRecords cfg seen s).lookup X = some (buildRecord cfg x1 sg) ∧
        ((gRecords cfg seen s).map Prod.fst).count X = 1 := by
  intro N
  induction N with
  | zero =>
    intro s hs seen _ x1 r1 hnt
    have hnil : s = [] := List.length_eq_zero.mp (Nat.le_zero.mp hs)
    subst hnil
    simp [nameTuples] at hnt
  | succ N ih =>
    intro s hs seen hX x1 r1 hnt
    match s with
    | [] => simp [nameTuples] at hnt
    | a :: t =>
      have htlen : t.length ≤ N := Nat.le_of_succ_le_succ hs
      have hblen : (nextBlock cfg t).length ≤ N :=
        Nat.le_trans (dropWhile_length_le _ t) htlen
      by_cases hname : a.tag = cfg.nameTag
      · by_cases hXv : a.value = X
        · have hcond : (a.tag == cfg.nameTag && a.value == X) = true := by
            rw [beq_iff_eq.mpr hname, beq_iff_eq.mpr hXv]
            rfl
          rw [nameTuples_cons, if_pos hcond] at hnt
          have hx1 : a = x1 := (List.cons.injEq _ _ _ _).mp hnt |>.1
          have hseen : seen a.value = false := hXv ▸ hX
          refine ⟨attrBlock cfg t, ?_, ?_, ?_⟩
          · rw [firstSeg, if_pos hcond, hx1]
          · rw [gRecords, if_pos hname, hseen]
            simp only [Bool.false_eq_true, if_false]
            rw [lookup_cons_eq, if_pos hXv.symm, hx1]
          · rw [gRecords, if_pos hname, hseen]
            simp only [Bool.false_eq_true, if_false, List.map_cons]
            rw [List.count_cons]
            have hb : (a.value == X) = true := beq_iff_eq.mpr hXv
            have hnm : X ∉ (gRecords cfg (fun x => seen x || x == a.value)
                (nextBlock cfg t)).map Prod.fst := by
              apply gRecords_not_mem cfg X (nextBlock cfg t).length _ (Nat.le_refl _)
              rw [beq_iff_eq.mpr hXv.symm]
              simp
            rw [List.count_eq_zero.mpr hnm]
            simp [hXv]
        · have hcond : (a.tag == cfg.nameTag && a.value == X) = false := by
            have : (a.value == X) = false := beq_eq_false_iff_ne.mpr hXv
            simp [this]
          rw [nameTuples_cons, hcond] at hnt
          simp only [Bool.false_eq_true, if_false] at hnt
          rw [nameTuples_tail_eq cfg X t] at hnt
          have hfs : firstSeg cfg X (a :: t) = firstSeg cfg X (nextBlock cfg t) := by
            rw [firstSeg, hcond]
            simp only [Bool.false_eq_true, if_false]
            exact firstSeg_tail_eq cfg X t
          cases hseen : seen a.value
          · have hseen2 : (fun x => seen x || x == a.value) X = false := by
              simp only
              rw [beq_eq_false_iff_ne.mpr fun he => hXv he.symm, hX]
              rfl
            obtain ⟨sg, hf, hl, hc⟩ :=
              ih (nextBlock cfg t) hblen (fun x => seen x || x == a.value) hseen2 x1 r1 hnt
            refine ⟨sg, ?_, ?_, ?_⟩
            · rw [hfs]
              exact hf
            · rw [gRecords, if_pos hname, hseen]
              simp only [Bool.false_eq_true, if_false]
              rw [lookup_cons_eq, if_neg fun he => hXv he.symm]
              exact hl
            · rw [gRecords, if_pos hname, hseen]
              simp only [Bool.false_eq_true, if_false, List.map_cons]
              rw [List.count_cons, hc]
              simp [beq_eq_false_iff_ne.mpr hXv]
          · obtain ⟨sg, hf, hl, hc⟩ := ih (nextBlock cfg t) hblen seen hX x1 r1 hnt
            refine ⟨sg, ?_, ?_, ?_⟩
            · rw [hfs]
              exact hf
            · rw [gRecords, if_pos hname, hseen]
              simp only [if_true]
              exact hl
            · rw [gRecords, if_pos hname, hseen]
              simp only [if_true]
              exact hc
      · have hcond : (a.tag == cfg.nameTag && a.value == X) = false := by
          have : (a.tag == cfg.nameTag) = false := beq_eq_false_iff_ne.mpr hname
          simp [this]
        rw [nameTuples_cons, hcond] at hnt
        simp only [Bool.false_eq_true, if_false] at hnt
        obtain ⟨sg, hf, hl, hc⟩ := ih t htlen seen hX x1 r1 hnt
        refine ⟨sg, ?_, ?_, ?_⟩
        · rw [firstSeg, hcond]
          simp only [Bool.false_eq_true, if_false]
          exact hf
        · rw [gRecords, if_neg hname]
          exact hl
        · rw [gRecords, if_neg hname]
          exact hc

/-- A stream with no leading attribute block produces no
`OrphanAttribute` diagnostics. -/
theorem gDiags_no_orphans (cfg : AnnotConfig) :
    ∀ (N : Nat) (s : List RawAnnot), s.length ≤ N →
      s.takeWhile (notName cfg) = [] → ∀ (seen : String → Bool),
      (gDiags cfg seen s).filter isOrphanDiag = [] := by
  intro N
  induction N with
  | zero =>
    intro s hs _ seen
    have hnil : s = [] := List.length_eq_zero.mp (Nat.le_zero.mp hs)
    subst hnil
    simp [gDiags]
  | succ N ih =>
    intro s hs hstart seen
    match s with
    | [] => simp [gDiags]
    | a :: t =>
      have htlen : t.length ≤ N := Nat.le_of_succ_le_succ hs
      have hblen : (nextBlock cfg t).length ≤ N :=
        Nat.le_trans (dropWhile_length_le _ t) htlen
      have hname : a.tag = cfg.nameTag := by
        by_contra hc
        have hn : notName cfg a = true := by simp [notName, hc]
        rw [List.takeWhile_cons, if_pos hn] at hstart
        exact List.cons_ne_nil _ _ hstart
      cases hseen : seen a.value
      · rw [gDiags, if_pos hname, hseen]
        simp only [Bool.false_eq_true, if_false]
        exact ih (nextBlock cfg t) hblen (nextBlock_startsName cfg t) _
      · rw [gDiags, if_pos hname, hseen]
        simp only [if_true]
        rw [List.filter_cons]
        have : isOrphanDiag (Diagnostic.DuplicateName a.value a.file a.line) = false := rfl
        rw [this]
        simp only [Bool.false_eq_true, if_false]
        exact ih (nextBlock cfg t) hblen (nextBlock_startsName cfg t) seen

/-- C2: for every input stream in which a name tag with entity name `X`
appears exactly twice, the Assembler reports exactly one `DuplicateName`
diagnostic — carrying the duplicate's name and provenance (the second
occurrence) — the returned mapping contains exactly one Record for `X`,
built from the first occurrence's name tuple and attribute block only
(provenance included), and the scan does not abort (the record is
present and the diagnostics are returned alongside). -/
theorem C2_duplicate_name (cfg : AnnotConfig) (s : List RawAnnot) (X : String)
    (h : (nameTuples cfg X s).length = 2) :
    ∃ x1 x2 sg,
      nameTuples cfg X s = [x1, x2] ∧
      x2.value = X ∧
      (assemble cfg s).diags.filter (isDupName X) = [dupOf x2] ∧
      firstSeg cfg X s = some (x1, sg) ∧
      ((assemble cfg s).records.map Prod.fst).count X = 1 ∧
      (assemble cfg s).records.lookup X = some (buildRecord cfg x1 sg) ∧
      (buildRecord cfg x1 sg).file = x1.file ∧
      (buildRecord cfg x1 sg).line = x1.line := by
  obtain ⟨m2, hcl⟩ := assemble_closed cfg s
  cases hnt : nameTuples cfg X s with
  | nil => rw [hnt] at h; simp at h
  | cons x1 r =>
    cases r with
    | nil => rw [hnt] at h; simp at h
    | cons x2 r2 =>
      cases r2 with
      | cons y r3 => rw [hnt] at h; simp at h
      | nil =>
        obtain ⟨sg, hf, hl, hc⟩ := gRecords_first cfg X s.length s (Nat.le_refl _)
          (fun _ => false) rfl x1 [x2] hnt
        have hx2 : x2.value = X := by
          have hm : x2 ∈ nameTuples cfg X s := by
            rw [hnt]
            simp
          unfold nameTuples at hm
          have := List.of_mem_filter hm
          exact beq_iff_eq.mp (Bool.and_elim_right this)
        refine ⟨x1, x2, sg, rfl, hx2, ?_, hf, ?_, ?_, ?_, ?_⟩
        · rw [hcl]
          rw [gDiags_filter_dup cfg X s.length s (Nat.le_refl _) (fun _ => false)]
          simp only [Bool.false_eq_true, if_false]
          rw [hnt]
          simp
        · rw [hcl]
          exact hc
        · rw [hcl]
          exact hl
        · exact (buildRecord_provenance cfg sg (Record.new x1)).1
        · exact (buildRecord_provenance cfg sg (Record.new x1)).2

/-- C3: for every input stream containing an attribute tag before any
name tag, the Assembler reports exactly one `OrphanAttribute` diagnostic
per orphan tuple (the orphan diagnostics are exactly the leading
non-name tuples, in order), the orphan values reach no Record (the
returned mapping is the one obtained from the stream with the orphan
block removed), and the scan continues rather than aborting. -/
theorem C3_orphan_attribute (cfg : AnnotConfig) (s : List RawAnnot)
    (h : s.takeWhile (notName cfg) ≠ []) :
    (assemble cfg s).diags.filter isOrphanDiag = (s.takeWhile (notName cfg)).map orphanOf ∧
    (assemble cfg s).records = (assemble cfg (s.dropWhile (notName cfg))).records := by
  have hw : ∀ a ∈ s.takeWhile (notName cfg), a.tag ≠ cfg.nameTag := by
    intro a ha
    have := List.mem_takeWhile_imp ha
    simpa [notName] using this
  obtain ⟨m2, hcl⟩ := assemble_closed cfg s
  obtain ⟨m3, hcl2⟩ := assemble_closed cfg (s.dropWhile (notName cfg))
  constructor
  · rw [hcl]
    have hsplit : s.takeWhile (notName cfg) ++ s.dropWhile (notName cfg) = s :=
      List.takeWhile_append_dropWhile _ _
    conv_lhs => rw [← hsplit]
    rw [gDiags_skip cfg _ _ _ hw, List.filter_append,
      gDiags_no_orphans cfg (s.dropWhile (notName cfg)).length _ (Nat.le_refl _)
        (takeWhile_dropWhile_self _ _) _]
    rw [List.filter_eq_self.mpr]
    · simp
    · intro d hd
      obtain ⟨a, _, rfl⟩ := List.mem_map.mp hd
      rfl
  · rw [hcl, hcl2]
    have hsplit : s.takeWhile (notName cfg) ++ s.dropWhile (notName cfg) = s :=
      List.takeWhile_append_dropWhile _ _
    conv_lhs => rw [← hsplit]
    rw [gRecords_skip cfg _ _ _ hw]

/-! ### Concrete inputs for the assembler witnesses (the worked example
of the design document, section 8) -/

/-- The feature-toggle grammar of the worked example: a name tag, three
attribute tags, of which the use-cases tag is multi-value. -/
def cfgEx : AnnotConfig :=
  ⟨".. toggle_name:",
   [".. toggle_default:", ".. toggle_description:", ".. toggle_use_cases:"],
   [".. toggle_use_cases:"]⟩

/-- The worked example stream: one toggle with default and description. -/
def streamEx : List RawAnnot :=
  [⟨".. toggle_name:", "ENABLE_X", "toggles.py", 2⟩,
   ⟨".. toggle_default:", "False", "toggles.py", 3⟩,
   ⟨".. toggle_description:", "enables X", "toggles.py", 4⟩]

/-- The worked example stream followed by a duplicate block for the same
name at line 10. -/
def streamDup : List RawAnnot :=
  streamEx ++
    [⟨".. toggle_name:", "ENABLE_X", "toggles.py", 10⟩,
     ⟨".. toggle_default:", "True", "toggles.py", 11⟩]

/-- An orphan attribute tuple in front of the worked example stream. -/
def streamOrph : List RawAnnot :=
  ⟨".. toggle_default:", "True", "toggles.py", 1⟩ :: streamEx

theorem C1_assembler_wellformed_witness :
    (streamEx.takeWhile (notName cfgEx) = [] ∧ (namesOf cfgEx streamEx).Nodup) ∧
    (assemble cfgEx streamEx).records.map Prod.fst = namesOf cfgEx streamEx :=
  ⟨⟨by decide, by decide⟩,
   (C1_assembler_wellformed cfgEx streamEx (by decide) (by decide)).1⟩

theorem C2_duplicate_name_witness :
    (nameTuples cfgEx "ENABLE_X" streamDup).length = 2 ∧
    ∃ x1 x2 sg,
      nameTuples cfgEx "ENABLE_X" streamDup = [x1, x2] ∧
      x2.value = "ENABLE_X" ∧
      (assemble cfgEx streamDup).diags.filter (isDupName "ENABLE_X") = [dupOf x2] ∧
      firstSeg cfgEx "ENABLE_X" streamDup = some (x1, sg) ∧
      ((assemble cfgEx streamDup).records.map Prod.fst).count "ENABLE_X" = 1 ∧
      (assemble cfgEx streamDup).records.lookup "ENABLE_X" =
        some (buildRecord cfgEx x1 sg) ∧
      (buildRecord cfgEx x1 sg).file = x1.file ∧
      (buildRecord cfgEx x1 sg).line = x1.line :=
  ⟨by decide, C2_duplicate_name cfgEx streamDup "ENABLE_X" (by decide)⟩

theorem C3_orphan_attribute_witness :
    (streamOrph.takeWhile (notName cfgEx) ≠ []) ∧
    ((assemble cfgEx streamOrph).diags.filter isOrphanDiag =
      (streamOrph.takeWhile (notName cfgEx)).map orphanOf ∧
     (assemble cfgEx streamOrph).records =
      (assemble cfgEx (streamOrph.dropWhile (notName cfgEx))).records) :=
  ⟨by decide, C3_orphan_attribute cfgEx streamOrph (by decide)⟩

/-! ### Annotation Scanner (modelled from the spec, section 4.1) -/

/-- The ordered set of recognized tags: the name tag first, then the
attribute tags. -/
def allTags (cfg : AnnotConfig) : List String :=
  cfg.nameTag :: cfg.attrTags

/-- Modelled from the spec: a line matches an annotation if it begins
(after optional leading whitespace) with one of the configured tag
prefixes; the value is exactly the remainder of the line, trimmed.  The
comment marker recognizing an annotation line is part of the configured
tag text. -/
def matchLine (cfg : AnnotConfig) (line : String) : Option (String × String) :=
  let l := line.data.dropWhile Char.isWhitespace
  (allTags cfg).findSome? fun t =>
    if beginsWith t.data l then some (t, String.mk (trimData (l.drop t.data.length)))
    else none

/-- Modelled from the spec: scan the lines of one file, emitting one
`RawAnnotation` per matching line with its 1-based line number;
unrecognized lines are ignored. -/
def scanLines (cfg : AnnotConfig) (path : String) : Nat → List String → List RawAnnot
  | _, [] => []
  | n, line :: rest =>
    (match matchLine cfg line with
     | some tv => [⟨tv.1, tv.2, path, n⟩]
     | none => []) ++ scanLines cfg path (n + 1) rest

/-- Scan one file, line numbers starting at 1. -/
def scanFile (cfg : AnnotConfig) (path : String) (lines : List String) : List RawAnnot :=
  scanLines cfg path 1 lines

/-- Insert into a list sorted by a string key (lexicographic order). -/
def insortKey {β : Type} (k : β → String) (x : β) : List β → List β
  | [] => [x]
  | y :: ys => if strLe (k x) (k y) then x :: y :: ys else y :: insortKey k x ys

/-- Insertion sort by a string key — the explicit, stable, reproducible
ordering required of the tree traversal (and Python `sorted`). -/
def sortKey {β : Type} (k : β → String) : List β → List β
  | [] => []
  | x :: xs => insortKey k x (sortKey k xs)

/-- Modelled from the spec: the Annotation Scanner — a file tree is a
finite set of (path, lines) pairs as enumerated by the host filesystem;
the scanner visits the files in lexicographic path order and emits each
file's annotations in line order. -/
def scanTree (cfg : AnnotConfig) (tree : List (String × List String)) : List RawAnnot :=
  ((sortKey Prod.fst tree).map fun p => scanFile cfg p.1 p.2).flatten

/-! ### Order lemmas for the lexicographic path order -/

theorem lexLe_total : ∀ (a b : List Char), lexLe a b = true ∨ lexLe b a = true
  | [], _ => Or.inl rfl
  | _ :: _, [] => Or.inr rfl
  | a :: as, b :: bs => by
    rcases lt_trichotomy a b with h | h | h
    · left
      simp [lexLe, h]
    · subst h
      rcases lexLe_total as bs with ih | ih
      · left
        simp [lexLe, lt_irrefl, ih]
      · right
        simp [lexLe, lt_irrefl, ih]
    · right
      simp [lexLe, h]

theorem lexLe_cons_iff (a b : Char) (as bs : List Char) :
    lexLe (a :: as) (b :: bs) = true ↔ a < b ∨ (a = b ∧ lexLe as bs = true) := by
  show (if a < b then true else if b < a then false else lexLe as bs) = true ↔ _
  by_cases h1 : a < b
  · rw [if_pos h1]
    simp [h1]
  · rw [if_neg h1]
    by_cases h2 : b < a
    · rw [if_pos h2]
      have hne : a ≠ b := fun he => absurd (he ▸ h2) (lt_irrefl a)
      simp [h1, hne]
    · rw [if_neg h2]
      have heq : a = b := le_antisymm (not_lt.mp h2) (not_lt.mp h1)
      simp [h1, heq]

theorem lexLe_trans : ∀ (a b c : List Char),
    lexLe a b = true → lexLe b c = true → lexLe a c = true
  | [], _, _, _, _ => rfl
  | _ :: _, [], _, hab, _ => by cases hab
  | _ :: _, _ :: _, [], _, hbc => by cases hbc
  | a :: as, b :: bs, c :: cs, hab, hbc => by
    rw [lexLe_cons_iff] at hab hbc ⊢
    rcases hab with h1 | ⟨h1, h1t⟩
    · rcases hbc with h2 | ⟨h2, _⟩
      · exact Or.inl (lt_trans h1 h2)
      · exact Or.inl (h2 ▸ h1)
    · rcases hbc with h2 | ⟨h2, h2t⟩
      · exact Or.inl (h1 ▸ h2)
      · exact Or.inr ⟨h1.trans h2, lexLe_trans as bs cs h1t h2t⟩

theorem lexLe_antisymm : ∀ (a b : List Char),
    lexLe a b = true → lexLe b a = true → a = b
  | [], [], _, _ => rfl
  | [], _ :: _, _, hba => by cases hba
  | _ :: _, [], hab, _ => by cases hab
  | a :: as, b :: bs, hab, hba => by
    rw [lexLe_cons_iff] at hab hba
    rcases hab with h1 | ⟨h1, h1t⟩
    · rcases hba with h2 | ⟨h2, _⟩
      · exact absurd (lt_trans h1 h2) (lt_irrefl a)
      · exact absurd (h2 ▸ h1) (lt_irrefl b)
    · rcases hba with h2 | ⟨h2, h2t⟩
      · exact absurd (h1 ▸ h2) (lt_irrefl b)
      · rw [h1, lexLe_antisymm as bs h1t h2t]

theorem strLe_total (s t : String) : strLe s t = true ∨ strLe t s = true :=
  lexLe_total s.data t.data

theorem strLe_trans (s t u : String) (h1 : strLe s t = true) (h2 : strLe t u = true) :
    strLe s u = true :=
  lexLe_trans s.data t.data u.data h1 h2

theorem strLe_antisymm (s t : String) (h1 : strLe s t = true) (h2 : strLe t s = true) :
    s = t := by
  cases s with
  | mk d1 =>
    cases t with
    | mk d2 =>
      have : d1 = d2 := lexLe_antisymm d1 d2 h1 h2
      rw [this]

theorem strLe_refl (s : String) : strLe s s = true := by
  rcases strLe_total s s with h | h <;> exact h

/-! ### Sorting lemmas -/

theorem insortKey_perm {β : Type} (k : β → String) (x : β) :
    ∀ l : List β, (insortKey k x l).Perm (x :: l)
  | [] => List.Perm.refl _
  | y :: ys => by
    unfold insortKey
    by_cases h : strLe (k x) (k y) = true
    · rw [if_pos h]
    · rw [if_neg h]
      exact ((insortKey_perm k x ys).cons y).trans (List.Perm.swap x y ys)

theorem sortKey_perm {β : Type} (k : β → String) :
    ∀ l : List β, (sortKey k l).Perm l
  | [] => List.Perm.refl _
  | x :: xs =>
    (insortKey_perm k x (sortKey k xs)).trans ((sortKey_perm k xs).cons x)

theorem insortKey_pairwise {β : Type} (k : β → String) (x : β) :
    ∀ l : List β, List.Pairwise (fun u v => strLe (k u) (k v) = true) l →
      List.Pairwise (fun u v => strLe (k u) (k v) = true) (insortKey k x l)
  | [], _ => List.pairwise_singleton _ _
  | y :: ys, hp => by
    rcases List.pairwise_cons.mp hp with ⟨hy, hys⟩
    unfold insortKey
    by_cases h : strLe (k x) (k y) = true
    · rw [if_pos h]
      refine List.pairwise_cons.mpr ⟨?_, hp⟩
      intro z hz
      rcases List.mem_cons.mp hz with rfl | hz2
      · exact h
      · exact strLe_trans _ _ _ h (hy z hz2)
    · rw [if_neg h]
      refine List.pairwise_cons.mpr ⟨?_, insortKey_pairwise k x ys hys⟩
      intro z hz
      rcases (insortKey_perm k x ys).mem_iff.mp hz with hz2
      rcases List.mem_cons.mp hz2 with he | hz3
      · rw [he]
        rcases strLe_total (k x) (k y) with ht | ht
        · exact absurd ht h
        · exact ht
      · exact hy z hz3

theorem sortKey_pairwise {β : Type} (k : β → String) :
    ∀ l : List β, List.Pairwise (fun u v => strLe (k u) (k v) = true) (sortKey k l)
  | [] => List.Pairwise.nil
  | x :: xs => insortKey_pairwise k x (sortKey k xs) (sortKey_pairwise k xs)

/-- Two key-sorted lists that are permutations of each other with
duplicate-free keys are equal. -/
theorem sorted_key_nodup_eq {β : Type} (k : β → String) :
    ∀ (l1 l2 : List β), l1.Perm l2 →
      List.Pairwise (fun u v => strLe (k u) (k v) = true) l1 →
      List.Pairwise (fun u v => strLe (k u) (k v) = true) l2 →
      (l1.map k).Nodup → l1 = l2
  | [], l2, hp, _, _, _ => (hp.nil_eq).symm ▸ rfl
  | a :: t1, [], hp, _, _, _ => by
    have := hp.length_eq
    simp at this
  | a :: t1, b :: t2, hp, hs1, hs2, hnd => by
    rcases List.pairwise_cons.mp hs1 with ⟨ha, ht1⟩
    rcases List.pairwise_cons.mp hs2 with ⟨hb, ht2⟩
    have hab : a = b := by
      have hmb : b ∈ a :: t1 := hp.symm.subset (List.mem_cons_self b t2)
      rcases List.mem_cons.mp hmb with rfl | hmb2
      · rfl
      · have hma : a ∈ b :: t2 := hp.subset (List.mem_cons_self a t1)
        rcases List.mem_cons.mp hma with rfl | hma2
        · rfl
        · have h1 : strLe (k a) (k b) = true := ha b hmb2
          have h2 : strLe (k b) (k a) = true := hb a hma2
          have hk : k a = k b := strLe_antisymm _ _ h1 h2
          simp only [List.map_cons, List.nodup_cons] at hnd
          exact absurd (hk ▸ List.mem_map.mpr ⟨b, hmb2, rfl⟩) hnd.1
    subst hab
    have hpt : t1.Perm t2 := hp.cons_inv
    have hnd2 : (t1.map k).Nodup := by
      simp only [List.map_cons, List.nodup_cons] at hnd
      exact hnd.2
    rw [sorted_key_nodup_eq k t1 t2 hpt ht1 ht2 hnd2]

/-! ### Per-file scan facts -/

theorem scanLines_mem (cfg : AnnotConfig) (path : String) :
    ∀ (ls : List String) (n : Nat) (a : RawAnnot),
      a ∈ scanLines cfg path n ls → a.file = path ∧ n ≤ a.line := by
  intro ls
  induction ls with
  | nil => intro n a ha; simp [scanLines] at ha
  | cons line rest ih =>
    intro n a ha
    rw [scanLines] at ha
    rcases List.mem_append.mp ha with hl | hr
    · cases hm : matchLine cfg line with
      | some tv =>
        rw [hm] at hl
        rcases List.mem_singleton.mp hl with rfl
        exact ⟨rfl, Nat.le_refl _⟩
      | none =>
        rw [hm] at hl
        simp at hl
    · obtain ⟨hf, hn⟩ := ih (n + 1) a hr
      exact ⟨hf, Nat.le_of_succ_le hn⟩

theorem scanLines_pairwise (cfg : AnnotConfig) (path : String) :
    ∀ (ls : List String) (n : Nat),
      List.Pairwise (fun u v : RawAnnot => u.line < v.line) (scanLines cfg path n ls) := by
  intro ls
  induction ls with
  | nil => intro n; simp [scanLines]
  | cons line rest ih =>
    intro n
    rw [scanLines]
    rw [List.pairwise_append]
    refine ⟨?_, ih (n + 1), ?_⟩
    · cases matchLine cfg line <;> simp
    · intro x hx y hy
      have hxl : x.line = n := by
        cases hm : matchLine cfg line with
        | some tv =>
          rw [hm] at hx
          rcases List.mem_singleton.mp hx with rfl
          rfl
        | none =>
          rw [hm] at hx
          simp at hx
      have hyl : n + 1 ≤ y.line := (scanLines_mem cfg path rest (n + 1) y hy).2
      rw [hxl]
      exact Nat.lt_of_succ_le hyl

theorem scanFile_mem (cfg : AnnotConfig) (path : String) (ls : List String) (a : RawAnnot)
    (h : a ∈ scanFile cfg path ls) : a.file = path :=
  (scanLines_mem cfg path ls 1 a h).1

/-- C4: the Annotation Scanner is deterministic — for a fixed file tree
(duplicate-free file paths) two invocations produce identical ordered
`RawAnnotation` sequences, even when the host filesystem enumerates the
tree's entries in a different order: the explicit lexicographic path sort
makes the output independent of the enumeration order. -/
theorem C4_scanner_deterministic (cfg : AnnotConfig)
    (t1 t2 : List (String × List String))
    (hnd : (t1.map Prod.fst).Nodup) (hp : t1.Perm t2) :
    scanTree cfg t1 = scanTree cfg t2 := by
  have hsort : sortKey Prod.fst t1 = sortKey Prod.fst t2 := by
    apply sorted_key_nodup_eq Prod.fst
    · exact (sortKey_perm _ t1).trans (hp.trans (sortKey_perm _ t2).symm)
    · exact sortKey_pairwise _ t1
    · exact sortKey_pairwise _ t2
    · have hm : ((sortKey Prod.fst t1).map Prod.fst).Perm (t1.map Prod.fst) :=
        (sortKey_perm _ t1).map _
      exact hm.nodup_iff.mpr hnd
  unfold scanTree
  rw [hsort]

/-- C5: the Scanner emits tuples sorted by file path first and by 1-based
line number within each file: for any two emitted tuples, the first one's
file strictly precedes the second one's in the lexicographic path order,
or the files are equal and the line numbers are non-decreasing. -/
theorem C5_scanner_ordered (cfg : AnnotConfig) (tree : List (String × List String))
    (hnd : (tree.map Prod.fst).Nodup) :
    List.Pairwise (fun u v : RawAnnot =>
      (strLe u.file v.file = true ∧ u.file ≠ v.file) ∨
      (u.file = v.file ∧ u.line ≤ v.line)) (scanTree cfg tree) := by
  unfold scanTree
  rw [List.pairwise_flatten]
  constructor
  · intro l hl
    obtain ⟨p, hpmem, hpe⟩ := List.mem_map.mp hl
    subst hpe
    apply List.Pairwise.imp_of_mem ?_ (scanLines_pairwise cfg p.1 p.2 1)
    intro x y hx hy hlt
    right
    rw [scanFile_mem cfg p.1 p.2 x hx, scanFile_mem cfg p.1 p.2 y hy]
    exact ⟨rfl, Nat.le_of_lt hlt⟩
  · have hsorted := sortKey_pairwise Prod.fst tree
    have hnd2 : ((sortKey Prod.fst tree).map Prod.fst).Nodup :=
      ((sortKey_perm Prod.fst tree).map Prod.fst).nodup_iff.mpr hnd
    have hneq : List.Pairwise (fun u v : String × List String => u.1 ≠ v.1)
        (sortKey Prod.fst tree) := List.pairwise_map.mp hnd2
    rw [List.pairwise_map]
    apply List.Pairwise.imp ?_ (hsorted.and hneq)
    rintro p q ⟨hle, hne⟩ x hx y hy
    left
    rw [scanFile_mem cfg p.1 p.2 x hx, scanFile_mem cfg q.1 q.2 y hy]
    exact ⟨hle, hne⟩

/-! ### Concrete inputs for the scanner witnesses -/

/-- A scanning grammar whose tag text includes the comment marker. -/
def cfgScan : AnnotConfig :=
  ⟨"# .. toggle_name:", ["# .. toggle_default:", "# .. toggle_description:"], []⟩

/-- A two-file tree as enumerated in one order. -/
def treeEx : List (String × List String) :=
  [("src/b.py", ["# .. toggle_name: ENABLE_B", "x = 1", "  # .. toggle_default: True"]),
   ("src/a.py", ["", "# .. toggle_name: ENABLE_A"])]

/-- The same tree enumerated in the opposite order. -/
def treeExRev : List (String × List String) :=
  [("src/a.py", ["", "# .. toggle_name: ENABLE_A"]),
   ("src/b.py", ["# .. toggle_name: ENABLE_B", "x = 1", "  # .. toggle_default: True"])]

theorem C4_scanner_deterministic_witness :
    ((treeEx.map Prod.fst).Nodup ∧ treeEx.Perm treeExRev) ∧
    scanTree cfgScan treeEx = scanTree cfgScan treeExRev :=
  ⟨⟨by decide, by decide⟩,
   C4_scanner_deterministic cfgScan treeEx treeExRev (by decide) (by decide)⟩

theorem C5_scanner_ordered_witness :
    (treeEx.map Prod.fst).Nodup ∧
    List.Pairwise (fun u v : RawAnnot =>
      (strLe u.file v.file = true ∧ u.file ≠ v.file) ∨
      (u.file = v.file ∧ u.line ≤ v.line)) (scanTree cfgScan treeEx) :=
  ⟨by decide, C5_scanner_ordered cfgScan treeEx (by decide)⟩

/-! ### The Sphinx rendering adapter (embedded from
`code_annotations/contrib/sphinx/extensions/featuretoggles.py`) -/

/-- The "not applicable" sentinel values of the rendering adapter:
`(None, "None", "n/a", "N/A")` with Python `None` modelled as an absent
value (`Option.none`). -/
def sentinelVals : List String := ["None", "n/a", "N/A"]

/-- A toggle mapping as handed to the adapter by `find_annotations`:
provenance (`toggle["filename"]`, `toggle["line_number"]`) and the
annotation-token-to-value entries queried with `toggle.get(...)`. -/
structure Toggle where
  filename : String
  line_number : Nat
  attrs : List (String × String)
deriving DecidableEq

/-- `toggle.get(key)`: the value of an annotation token, if present. -/
def Toggle.get (t : Toggle) (k : String) : Option String :=
  t.attrs.lookup k

/-- The host configuration surface used by the adapter:
`featuretoggles_repo_url` and `featuretoggles_repo_version`. -/
structure HostConfig where
  featuretoggles_repo_url : String
  featuretoggles_repo_version : String
deriving DecidableEq

/-- The docutils nodes appended to a toggle's section by `iter_nodes`,
each carrying its `ids` entry: the title, the default-value paragraph
(its value passed through `quote_value`), the source paragraph with its
hyperlink `refuri`, the description paragraph, the warning, and one
paragraph per displayed optional attribute. -/
inductive DNode where
  | title (id text : String)
  | defaultPara (id value : String)
  | sourcePara (id text refuri : String)
  | descPara (id text : String)
  | warningPara (id text : String)
  | optPara (id text : String)
deriving DecidableEq

/-- The `ids` entry of a node. -/
def DNode.nodeId : DNode → String
  | .title i _ => i
  | .defaultPara i _ => i
  | .sourcePara i _ _ => i
  | .descPara i _ => i
  | .warningPara i _ => i
  | .optPara i _ => i

/-- Python `str.title()`: the first cased character of each word is
uppercased, the rest lowercased (alphabetic characters only, as in the
adapter's ASCII attribute names). -/
def pyTitleAux : Bool → List Char → List Char
  | _, [] => []
  | prev, c :: cs =>
    if c.isAlpha then (if prev then c.toLower else c.toUpper) :: pyTitleAux true cs
    else c :: pyTitleAux false cs

def pyTitle (s : String) : String :=
  String.mk (pyTitleAux false s.data)

/-- Python `.replace("_", " ")` for the single-character pattern used by
the adapter. -/
def replaceUnderscores (s : String) : String :=
  String.mk (s.data.map fun c => if c == '_' then ' ' else c)

/-- The adapter's `optional_attrs` list, in source order. -/
def optional_attrs : List String :=
  ["creation_date", "target_removal_date", "implementation", "use_cases"]

/-- `toggle.get(tag) in (None, "None", "n/a", "N/A")`: the attribute is
absent or an explicit "not applicable" sentinel. -/
def omitted (v : Option String) : Bool :=
  match v with
  | none => true
  | some s => sentinelVals.contains s

/-- The children appended to one toggle's section by
`FeatureToggles.iter_nodes` (lines 74-116 of the source), in source
order; `qv` is the `quote_value` helper imported from `.base`. -/
def toggleNodes (cfg : HostConfig) (qv : String → String) (toggle_name : String)
    (toggle : Toggle) : List DNode :=
  [.title ("name-" ++ toggle_name) toggle_name,
   .defaultPara ("default-" ++ toggle_name)
     (qv ((toggle.get ".. toggle_default:").getD "Not defined")),
   .sourcePara ("source-" ++ toggle_name)
     (toggle.filename ++ " (line " ++ toString toggle.line_number ++ ")")
     (cfg.featuretoggles_repo_url ++ "/blob/" ++ cfg.featuretoggles_repo_version ++ "/"
       ++ toggle.filename ++ "#L" ++ toString toggle.line_number),
   .descPara ("description-" ++ toggle_name)
     ("Desc: " ++ ((toggle.get ".. toggle_description:").getD "NaN"))]
  ++ (if omitted (toggle.get ".. toggle_warning:") then []
      else [.warningPara ("warning-" ++ toggle_name)
        ((toggle.get ".. toggle_warning:").getD "")])
  ++ (optional_attrs.filterMap fun opt =>
      if omitted (toggle.get (".. toggle_" ++ opt ++ ":")) then none
      else some (.optPara (opt ++ "-" ++ toggle_name)
        (replaceUnderscores (pyTitle opt) ++ ": "
          ++ ((toggle.get (".. toggle_" ++ opt ++ ":")).getD ""))))

/-- One toggle's section node with its `ids` entry
`featuretoggle-{toggle_name}` and its children. -/
structure TSection where
  id : String
  name : String
  children : List DNode
deriving DecidableEq

def renderToggle (cfg : HostConfig) (qv : String → String) (toggle_name : String)
    (toggle : Toggle) : TSection :=
  ⟨"featuretoggle-" ++ toggle_name, toggle_name, toggleNodes cfg qv toggle_name toggle⟩

namespace FeatureToggles

/-- `FeatureToggles.run` / `iter_nodes`: one section per toggle, iterated
in `sorted(toggles)` order (Python string sort on the toggle names). -/
def run (cfg : HostConfig) (qv : String → String)
    (toggles : List (String × Toggle)) : List TSection :=
  (sortKey (fun n => n) (toggles.map Prod.fst)).filterMap fun n =>
    (toggles.lookup n).map fun t => renderToggle cfg qv n t

end FeatureToggles

/-! ### Identifier disjointness of the emitted nodes -/

theorem str_append_cancel (a b c : String) (h : a ++ c = b ++ c) : a = b := by
  have hd : a.data ++ c.data = b.data ++ c.data := by
    rw [← String.data_append, ← String.data_append, h]
  have hab : a.data = b.data := List.append_cancel_right hd
  exact congrArg String.mk hab

/-- Two node identifiers `attr ++ "-" ++ name` agree only for the same
attribute. -/
theorem id_inj (a b n : String) (h : a ++ "-" ++ n = b ++ "-" ++ n) : a = b :=
  str_append_cancel a b "-" (str_append_cancel (a ++ "-") (b ++ "-") n h)

/-- A node with identifier `attr ++ "-" ++ name` for `attr` among the
warning and optional attributes exists in a toggle's section exactly when
the attribute is neither absent nor a "not applicable" sentinel. -/
theorem attr_node_iff (cfg : HostConfig) (qv : String → String)
    (toggle_name : String) (toggle : Toggle) (attr : String)
    (h1 : attr ∈ "warning" :: optional_attrs) :
    (∃ nd ∈ toggleNodes cfg qv toggle_name toggle,
        nd.nodeId = attr ++ "-" ++ toggle_name) ↔
    omitted (toggle.get (".. toggle_" ++ attr ++ ":")) = false := by
  constructor
  · rintro ⟨nd, hmem, hid⟩
    rw [toggleNodes] at hmem
    rcases List.mem_append.mp hmem with hm | hopt
    · rcases List.mem_append.mp hm with hfix | hwarn
      · -- one of the four unconditional nodes
        have hattr4 : attr = "name" ∨ attr = "default" ∨ attr = "source" ∨
            attr = "description" := by
          simp only [List.mem_cons, List.mem_singleton] at hfix
          rcases hfix with rfl | rfl | rfl | rfl | hfix
          · exact Or.inl (id_inj "name" attr toggle_name hid).symm
          · exact Or.inr (Or.inl (id_inj "default" attr toggle_name hid).symm)
          · exact Or.inr (Or.inr (Or.inl (id_inj "source" attr toggle_name hid).symm))
          · exact Or.inr (Or.inr (Or.inr (id_inj "description" attr toggle_name hid).symm))
          · simp at hfix
        rcases hattr4 with rfl | rfl | rfl | rfl <;>
          exact absurd h1 (by decide)
      · -- the warning node
        by_cases hsent : omitted (toggle.get ".. toggle_warning:") = true
        · rw [if_pos hsent] at hwarn
          simp at hwarn
        · rw [if_neg hsent] at hwarn
          rcases List.mem_singleton.mp hwarn with rfl
          have hwa : attr = "warning" := (id_inj "warning" attr toggle_name hid).symm
          subst hwa
          show omitted (toggle.get ".. toggle_warning:") = false
          exact Bool.of_not_eq_true hsent
    · -- the optional-attribute nodes
      obtain ⟨opt, hoptmem, hf⟩ := List.mem_filterMap.mp hopt
      by_cases hsent : omitted (toggle.get (".. toggle_" ++ opt ++ ":")) = true
      · rw [if_pos hsent] at hf
        cases hf
      · rw [if_neg hsent] at hf
        cases hf
        have hoa : attr = opt := (id_inj opt attr toggle_name hid).symm
        subst hoa
        exact Bool.of_not_eq_true hsent
  · intro h2
    have h2n : ¬ omitted (toggle.get (".. toggle_" ++ attr ++ ":")) = true := by
      rw [h2]
      exact Bool.false_ne_true
    rcases List.mem_cons.mp h1 with rfl | hopt
    · have htag : (".. toggle_" ++ "warning" ++ ":" : String) = ".. toggle_warning:" := rfl
      rw [htag] at h2n
      refine ⟨.warningPara ("warning-" ++ toggle_name)
        ((toggle.get ".. toggle_warning:").getD ""), ?_, rfl⟩
      rw [toggleNodes]
      apply List.mem_append.mpr
      left
      apply List.mem_append.mpr
      right
      rw [if_neg h2n]
      exact List.mem_singleton.mpr rfl
    · refine ⟨.optPara (attr ++ "-" ++ toggle_name)
        (replaceUnderscores (pyTitle attr) ++ ": "
          ++ ((toggle.get (".. toggle_" ++ attr ++ ":")).getD "")), ?_, rfl⟩
      rw [toggleNodes]
      apply List.mem_append.mpr
      right
      apply List.mem_filterMap.mpr
      refine ⟨attr, hopt, ?_⟩
      rw [if_neg h2n]

/-! ### Theorems about the rendered sections -/

/-- C6: every rendered toggle's source hyperlink has exactly the shape
`<repo_url>/blob/<revision>/<file>#L<line>`, where the repository URL and
revision come from the host configuration and the file and line are the
toggle Record's provenance. -/
theorem C6_source_link_shape (cfg : HostConfig) (qv : String → String)
    (toggles : List (String × Toggle)) (s : TSection)
    (hs : s ∈ FeatureToggles.run cfg qv toggles) :
    ∃ n t, toggles.lookup n = some t ∧ s.name = n ∧
      DNode.sourcePara ("source-" ++ n)
        (t.filename ++ " (line " ++ toString t.line_number ++ ")")
        (cfg.featuretoggles_repo_url ++ "/blob/" ++ cfg.featuretoggles_repo_version ++ "/"
          ++ t.filename ++ "#L" ++ toString t.line_number) ∈ s.children := by
  obtain ⟨n, _, he⟩ := List.mem_filterMap.mp hs
  cases ht : toggles.lookup n with
  | none =>
    rw [ht] at he
    cases he
  | some t =>
    rw [ht] at he
    simp only [Option.map_some'] at he
    cases he
    refine ⟨n, t, ht, rfl, ?_⟩
    rw [renderToggle, toggleNodes]
    apply List.mem_append.mpr
    left
    apply List.mem_append.mpr
    left
    simp

/-! Concrete inputs for the rendering witnesses -/

/-- A host configuration for the witnesses. -/
def cfgHostEx : HostConfig :=
  ⟨"https://github.com/openedx/myrepo", "master"⟩

/-- A toggle with no attribute values at all. -/
def togBare : Toggle := ⟨"toggles.py", 2, []⟩

/-- The worked-example toggle with default and description. -/
def togFull : Toggle :=
  ⟨"toggles.py", 2,
   [(".. toggle_default:", "False"), (".. toggle_description:", "enables X")]⟩

/-- A toggle missing its default-value attribute. -/
def togNoDefault : Toggle :=
  ⟨"toggles.py", 2, [(".. toggle_description:", "enables X")]⟩

theorem C6_source_link_shape_witness :
    (renderToggle cfgHostEx (fun v => v) "ENABLE_X" togFull ∈
      FeatureToggles.run cfgHostEx (fun v => v) [("ENABLE_X", togFull)]) ∧
    ∃ n t, (List.lookup n [("ENABLE_X", togFull)]) = some t ∧
      (renderToggle cfgHostEx (fun v => v) "ENABLE_X" togFull).name = n ∧
      DNode.sourcePara ("source-" ++ n)
        (t.filename ++ " (line " ++ toString t.line_number ++ ")")
        (cfgHostEx.featuretoggles_repo_url ++ "/blob/"
          ++ cfgHostEx.featuretoggles_repo_version ++ "/"
          ++ t.filename ++ "#L" ++ toString t.line_number) ∈
        (renderToggle cfgHostEx (fun v => v) "ENABLE_X" togFull).children :=
  ⟨by decide,
   C6_source_link_shape cfgHostEx (fun v => v) [("ENABLE_X", togFull)]
     (renderToggle cfgHostEx (fun v => v) "ENABLE_X" togFull) (by decide)⟩

/-- C7 counterexample: the claim includes the description among the
attributes suppressed when absent or "not applicable", but the adapter
emits the description paragraph unconditionally — for a toggle with no
description attribute the node with identifier `description-<name>` is
still present (with the `NaN` placeholder), refuting the claim at this
input. -/
theorem C7_counterexample :
    omitted (togBare.get ".. toggle_description:") = true ∧
    ∃ nd ∈ toggleNodes cfgHostEx (fun v => v) "ENABLE_X" togBare,
      nd.nodeId = "description" ++ "-" ++ "ENABLE_X" := by
  decide

/-- C7 (amended): for every toggle Record and every optional attribute
except the description — the warning, creation date, target-removal
date, implementation notes and use cases — if the attribute is absent or
an explicit "not applicable" sentinel, the rendering layer does not
display it: no node with that attribute's identifier is emitted in the
toggle's section.  (The description paragraph, by contrast, is always
emitted.) -/
theorem C7_amended_suppressed (cfg : HostConfig) (qv : String → String)
    (toggle_name : String) (toggle : Toggle) (attr : String)
    (h1 : attr ∈ "warning" :: optional_attrs)
    (h2 : omitted (toggle.get (".. toggle_" ++ attr ++ ":")) = true) :
    ¬ ∃ nd ∈ toggleNodes cfg qv toggle_name toggle,
        nd.nodeId = attr ++ "-" ++ toggle_name := by
  intro hex
  have := (attr_node_iff cfg qv toggle_name toggle attr h1).mp hex
  rw [h2] at this
  cases this

theorem C7_amended_suppressed_witness :
    ("creation_date" ∈ "warning" :: optional_attrs ∧
     omitted (togBare.get (".. toggle_" ++ "creation_date" ++ ":")) = true) ∧
    ¬ ∃ nd ∈ toggleNodes cfgHostEx (fun v => v) "ENABLE_X" togBare,
        nd.nodeId = "creation_date" ++ "-" ++ "ENABLE_X" :=
  ⟨⟨by decide, by decide⟩,
   C7_amended_suppressed cfgHostEx (fun v => v) "ENABLE_X" togBare "creation_date"
     (by decide) (by decide)⟩

/-- C8: a Record missing its default-value attribute is not a scan
failure — the Record stays in the mapping (its section is still
rendered) and the default paragraph displays the explicit placeholder
`"Not defined"` (passed, like every default value, through
`quote_value`). -/
theorem C8_missing_default (cfg : HostConfig) (qv : String → String)
    (toggles : List (String × Toggle)) (toggle_name : String) (toggle : Toggle)
    (hnd : (toggles.map Prod.fst).Nodup)
    (hmem : (toggle_name, toggle) ∈ toggles)
    (hdef : toggle.get ".. toggle_default:" = none) :
    ∃ s ∈ FeatureToggles.run cfg qv toggles, s.name = toggle_name ∧
      DNode.defaultPara ("default-" ++ toggle_name) (qv "Not defined") ∈ s.children := by
  have hlook := lookup_of_mem_nodup toggles toggle_name toggle hmem hnd
  have hns : toggle_name ∈ sortKey (fun n => n) (toggles.map Prod.fst) :=
    (sortKey_perm (fun n => n) _).mem_iff.mpr
      (List.mem_map.mpr ⟨(toggle_name, toggle), hmem, rfl⟩)
  refine ⟨renderToggle cfg qv toggle_name toggle, ?_, rfl, ?_⟩
  · apply List.mem_filterMap.mpr
    refine ⟨toggle_name, hns, ?_⟩
    rw [hlook]
    rfl
  · rw [renderToggle, toggleNodes]
    apply List.mem_append.mpr
    left
    apply List.mem_append.mpr
    left
    rw [hdef]
    simp

theorem C8_missing_default_witness :
    (([("ENABLE_X", togNoDefault)].map Prod.fst).Nodup ∧
     ("ENABLE_X", togNoDefault) ∈ [("ENABLE_X", togNoDefault)] ∧
     togNoDefault.get ".. toggle_default:" = none) ∧
    ∃ s ∈ FeatureToggles.run cfgHostEx (fun v => v) [("ENABLE_X", togNoDefault)],
      s.name = "ENABLE_X" ∧
      DNode.defaultPara ("default-" ++ "ENABLE_X") ((fun v => v) "Not defined") ∈
        s.children :=
  ⟨⟨by decide, by decide, by decide⟩,
   C8_missing_default cfgHostEx (fun v => v) [("ENABLE_X", togNoDefault)] "ENABLE_X"
     togNoDefault (by decide) (by decide) (by decide)⟩

theorem lookup_mem_keys {β : Type} (l : List (String × β)) (n : String)
    (h : n ∈ l.map Prod.fst) : ∃ v, l.lookup n = some v := by
  induction l with
  | nil => simp at h
  | cons p t ih =>
    rcases p with ⟨a, b⟩
    rw [lookup_cons_eq]
    by_cases hk : n = a
    · exact ⟨b, if_pos hk⟩
    · rw [if_neg hk]
      apply ih
      simp only [List.map_cons, List.mem_cons] at h
      rcases h with h | h
      · exact absurd h hk
      · exact h

theorem lookup_perm_eq {β : Type} (l1 l2 : List (String × β)) (hp : l1.Perm l2)
    (hnd : (l1.map Prod.fst).Nodup) (n : String) : l1.lookup n = l2.lookup n := by
  cases h1 : l1.lookup n with
  | some v =>
    have hm : (n, v) ∈ l2 := hp.subset (mem_of_lookup_eq_some l1 n v h1)
    have hnd2 : (l2.map Prod.fst).Nodup := ((hp.map Prod.fst).nodup_iff).mp hnd
    rw [lookup_of_mem_nodup l2 n v hm hnd2]
  | none =>
    rw [lookup_eq_none_iff] at h1
    have h2 : n ∉ l2.map Prod.fst := fun hc => h1 ((hp.map Prod.fst).mem_iff.mpr hc)
    rw [(lookup_eq_none_iff l2 n).mpr h2]

theorem run_names (cfg : HostConfig) (qv : String → String) :
    ∀ (ns : List String) (l : List (String × Toggle)),
      (∀ n ∈ ns, n ∈ l.map Prod.fst) →
      ((ns.filterMap fun n => (l.lookup n).map fun t => renderToggle cfg qv n t).map
        TSection.name) = ns := by
  intro ns
  induction ns with
  | nil => intro l _; rfl
  | cons n ns ih =>
    intro l hmem
    obtain ⟨v, hv⟩ := lookup_mem_keys l n (hmem n (List.mem_cons_self n ns))
    rw [List.filterMap_cons, hv]
    simp only [Option.map_some']
    rw [List.map_cons, ih l fun m hm => hmem m (List.mem_cons_of_mem _ hm)]
    rfl

/-- C9 (implicit): `FeatureToggles.run` returns exactly one section per
toggle in the mapping, the sections appear in sorted order of toggle
name, and the output is independent of the order in which the scanner
discovered the toggles. -/
theorem C9_run_sections (cfg : HostConfig) (qv : String → String)
    (l1 l2 : List (String × Toggle))
    (hnd : (l1.map Prod.fst).Nodup) (hp : l1.Perm l2) :
    ((FeatureToggles.run cfg qv l1).map TSection.name).Perm (l1.map Prod.fst) ∧
    List.Pairwise (fun s1 s2 => strLe s1.name s2.name = true)
      (FeatureToggles.run cfg qv l1) ∧
    FeatureToggles.run cfg qv l1 = FeatureToggles.run cfg qv l2 := by
  have hnames : (FeatureToggles.run cfg qv l1).map TSection.name =
      sortKey (fun n => n) (l1.map Prod.fst) := by
    apply run_names
    intro n hn
    exact (sortKey_perm (fun n => n) _).mem_iff.mp hn
  refine ⟨?_, ?_, ?_⟩
  · rw [hnames]
    exact sortKey_perm _ _
  · have hs := sortKey_pairwise (fun n => n) (l1.map Prod.fst)
    rw [← hnames] at hs
    exact List.pairwise_map.mp hs
  · unfold FeatureToggles.run
    have hkeys : sortKey (fun n => n) (l1.map Prod.fst) =
        sortKey (fun n => n) (l2.map Prod.fst) := by
      apply sorted_key_nodup_eq (fun n => n)
      · exact (sortKey_perm _ _).trans ((hp.map Prod.fst).trans (sortKey_perm _ _).symm)
      · exact sortKey_pairwise _ _
      · exact sortKey_pairwise _ _
      · have hsp := sortKey_perm (fun n : String => n) (l1.map Prod.fst)
        have hnds : (sortKey (fun n : String => n) (l1.map Prod.fst)).Nodup :=
          hsp.nodup_iff.mpr hnd
        simpa using hnds
    rw [hkeys]
    congr 1
    funext n
    rw [lookup_perm_eq l1 l2 hp hnd n]

/-- C10 (implicit): the description paragraph is emitted unconditionally
for every toggle — even when the description is absent (rendered with the
`NaN` placeholder) or a "not applicable" sentinel — whereas the warning
and the other optional attributes (creation date, target-removal date,
implementation, use cases) are emitted exactly when their value is
neither absent nor a sentinel. -/
theorem C10_description_always (cfg : HostConfig) (qv : String → String)
    (toggle_name : String) (toggle : Toggle) :
    (DNode.descPara ("description-" ++ toggle_name)
       ("Desc: " ++ ((toggle.get ".. toggle_description:").getD "NaN"))
       ∈ toggleNodes cfg qv toggle_name toggle) ∧
    ((∃ nd ∈ toggleNodes cfg qv toggle_name toggle,
        nd.nodeId = "warning" ++ "-" ++ toggle_name) ↔
      omitted (toggle.get ".. toggle_warning:") = false) ∧
    (∀ opt ∈ optional_attrs,
      ((∃ nd ∈ toggleNodes cfg qv toggle_name toggle,
          nd.nodeId = opt ++ "-" ++ toggle_name) ↔
        omitted (toggle.get (".. toggle_" ++ opt ++ ":")) = false)) := by
  refine ⟨?_, ?_, ?_⟩
  · rw [toggleNodes]
    apply List.mem_append.mpr
    left
    apply List.mem_append.mpr
    left
    simp
  · exact attr_node_iff cfg qv toggle_name toggle "warning" (List.mem_cons_self _ _)
  · intro opt hopt
    exact attr_node_iff cfg qv toggle_name toggle opt (List.mem_cons_of_mem _ hopt)

theorem C10_description_always_witness :
    DNode.descPara ("description-" ++ "ENABLE_X")
      ("Desc: " ++ ((togBare.get ".. toggle_description:").getD "NaN"))
      ∈ toggleNodes cfgHostEx (fun v => v) "ENABLE_X" togBare :=
  (C10_description_always cfgHostEx (fun v => v) "ENABLE_X" togBare).1

/-- Two toggle mappings with the same entries discovered in opposite
orders. -/
def togglesTwo : List (String × Toggle) :=
  [("ENABLE_B", togBare), ("ENABLE_A", togFull)]

def togglesTwoRev : List (String × Toggle) :=
  [("ENABLE_A", togFull), ("ENABLE_B", togBare)]

theorem C9_run_sections_witness :
    ((togglesTwo.map Prod.fst).Nodup ∧ togglesTwo.Perm togglesTwoRev) ∧
    (((FeatureToggles.run cfgHostEx (fun v => v) togglesTwo).map TSection.name).Perm
        (togglesTwo.map Prod.fst) ∧
     List.Pairwise (fun s1 s2 => strLe s1.name s2.name = true)
        (FeatureToggles.run cfgHostEx (fun v => v) togglesTwo) ∧
     FeatureToggles.run cfgHostEx (fun v => v) togglesTwo =
        FeatureToggles.run cfgHostEx (fun v => v) togglesTwoRev) :=
  ⟨⟨by decide, by decide⟩,
   C9_run_sections cfgHostEx (fun v => v) togglesTwo togglesTwoRev
     (by decide) (by decide)⟩
